import Mathlib

/-!
Verification of the NCP (Node Control Protocol) library: a shallow embedding
of the packet codec (`src/ncplib/packets.py`), the error classes
(`src/ncplib/errors.py`) and the client connection logic
(`src/ncplib/client.py`), together with theorems settling the frozen claims
about the specification.

Buffers are modelled as `List Nat` (one entry per byte).  Machine integers
are `Nat`/`Int` with explicit bounds.  Python exceptions are modelled by the
`PyExc` type; Python `warnings.warn` emissions are threaded through the
decoders as an explicit counter.  The decode loops of `decode_fields` can
fail to terminate in Python (a param whose declared size is zero does not
advance the offset), so the Lean decoders take an explicit fuel argument and
return `none` when the fuel runs out, modelling divergence.
-/

namespace NCPLib

instance {α β : Type} [DecidableEq α] [DecidableEq β] :
    DecidableEq (Except α β) := fun x y =>
  match x, y with
  | .error a, .error b =>
    if h : a = b then .isTrue (by rw [h])
    else .isFalse (by intro hc; cases hc; exact h rfl)
  | .ok a, .ok b =>
    if h : a = b then .isTrue (by rw [h])
    else .isFalse (by intro hc; cases hc; exact h rfl)
  | .error _, .ok _ => .isFalse (by intro hc; cases hc)
  | .ok _, .error _ => .isFalse (by intro hc; cases hc)

/-- Little-endian encoding of `n` into exactly `k` bytes
(Python `int.to_bytes(k, "little")`; Python raises `OverflowError` when
`n ≥ 2^(8*k)`, which legality side conditions rule out — this model keeps
the low `k` bytes). -/
def leBytes : Nat → Nat → List Nat
  | 0, _ => []
  | k + 1, n => n % 256 :: leBytes k (n / 256)

/-- Little-endian value of a byte list (Python `int.from_bytes(b, "little")`). -/
def readLE : List Nat → Nat
  | [] => 0
  | b :: bs => b + 256 * readLE bs

/-- `buf[off : off+k]` with Python slice clamping for nonnegative indices. -/
def readSlice (buf : List Nat) (off k : Nat) : List Nat :=
  (buf.drop off).take k

/-- In-place slice assignment `buf[pos : pos+repl.length] = repl`
(Python `bytearray` slice assignment with a replacement of equal length). -/
def setSlice (buf : List Nat) (pos : Nat) (repl : List Nat) : List Nat :=
  buf.take pos ++ repl ++ buf.drop (pos + repl.length)

/-- Concatenation of a list of byte strings. -/
def bytesConcat : List (List Nat) → List Nat
  | [] => []
  | b :: bs => b ++ bytesConcat bs

/-- `str.encode("latin1")`: one byte per character (each code point must be
below 256, enforced by legality side conditions). -/
def latin1Encode (s : String) : List Nat :=
  s.data.map Char.toNat

/-- `bytes.decode("latin1")`: one character per byte. -/
def latin1Decode (bs : List Nat) : String :=
  ⟨bs.map Char.ofNat⟩

/-- `struct` `4s` packing: truncate or zero-pad the byte string to 4 bytes. -/
def pad4 (bs : List Nat) : List Nat :=
  (bs ++ List.replicate 4 0).take 4

/-- `value.rstrip(b" \x00")` on a byte string. -/
def rstripSpNul (bs : List Nat) : List Nat :=
  (bs.reverse.dropWhile (fun b => b = 0x20 ∨ b = 0)).reverse

/-- `value.rstrip(b"\x00")` on a byte string. -/
def rstripNul (bs : List Nat) : List Nat :=
  (bs.reverse.dropWhile (fun b => b = 0)).reverse

/-- `decode_identifier` (packets.py:22): strip trailing spaces and NULs, then
decode as latin-1. -/
def decode_identifier (bs : List Nat) : String :=
  latin1Decode (rstripSpNul bs)

/-- Split a byte string into consecutive 4-byte words, dropping an incomplete
trailing group (array element count is `payload_length / 4`, per the spec). -/
def chunks4 : List Nat → List (List Nat)
  | b0 :: b1 :: b2 :: b3 :: rest => [b0, b1, b2, b3] :: chunks4 rest
  | _ => []

/-- `int.from_bytes(bs, "little", signed=True)`. -/
def readLEsigned (bs : List Nat) : Int :=
  let n := readLE bs
  if 2 * n < 2 ^ (8 * bs.length) then (n : Int) else (n : Int) - 2 ^ (8 * bs.length)

/-- Python exceptions observable from the embedded code.

`typeError` models the fact that in this repository every
`raise DecodeError(msg)` site actually raises `TypeError`: `DecodeError`
inherits `CommandMixin.__init__` (errors.py:9-24), which requires five
positional arguments, while the raise sites in packets.py pass one.
`structError` models `struct.error` from `unpack`/`unpack_from` on a
too-short buffer.  `unknownParamType` models the value codec rejecting an
unrecognised tag byte. -/
inductive PyExc where
  | typeError (site : String)
  | structError
  | unknownParamType (tag : Nat)
  deriving DecidableEq

/-- A typed NCP parameter value.

Modelled from the spec: the value codec module (`ncplib/values.py`,
`encode_value` / `decode_value`) is not under `src/`; §4.1 of the spec
defines it.  Python has a single `int` type, so signed/unsigned variants
collapse into `int` (the encoder chooses the tag by sign); likewise for
arrays.  The IEEE-754 `f64` variants are omitted (floating point is outside
the shallow embedding). -/
inductive Value where
  | int (z : Int)
  | str (s : String)
  | raw (b : List Nat)
  | intArray (zs : List Int)
  deriving DecidableEq

/-- Two's-complement 4-byte little-endian encoding of a signed 32-bit value. -/
def encodeI32 (z : Int) : List Nat :=
  leBytes 4 (z % (2 ^ 32 : Int)).toNat

/-- Modelled from the spec (§4.1, values module missing from src):
`encode_value`, mapping a value to a `(tag byte, payload bytes)` pair.
The narrowest fitting integer variant is chosen: signed when negative,
unsigned otherwise; strings are latin-1 with no terminator; raw is opaque;
arrays are concatenated 4-byte words with one variant for the whole array.
The tag byte constants are not given by the spec; distinct small constants
are used. -/
def encode_value : Value → Nat × List Nat
  | .int z => if z < 0 then (0, encodeI32 z) else (1, leBytes 4 z.toNat)
  | .str s => (2, latin1Encode s)
  | .raw b => (3, b)
  | .intArray zs =>
    if zs.any (fun z => z < 0) then (4, bytesConcat (zs.map encodeI32))
    else (5, bytesConcat (zs.map (fun z => leBytes 4 z.toNat)))

/-- Modelled from the spec (§4.1, values module missing from src):
`decode_value`, dispatching on the tag byte.  The payload handed over by the
param decoder includes the `0x00` padding, so the string decoder strips
trailing NULs (required by the spec round-trip property and by scenario 3).
An unknown tag fails (spec: `DecodeError{UnknownParamType}`). -/
def decode_value (tag : Nat) (payload : List Nat) : Except PyExc Value :=
  match tag with
  | 0 => .ok (.int (readLEsigned payload))
  | 1 => .ok (.int (readLE payload))
  | 2 => .ok (.str (latin1Decode (rstripNul payload)))
  | 3 => .ok (.raw payload)
  | 4 => .ok (.intArray ((chunks4 payload).map readLEsigned))
  | 5 => .ok (.intArray ((chunks4 payload).map (fun w => (readLE w : Int))))
  | t => .error (.unknownParamType t)

/-- Modelled from the spec (§4.2, helpers module missing from src): a packet
timestamp is a pair of unix seconds and nanoseconds; `datetime_to_unix` and
`unix_to_datetime` convert between the datetime and this pair. -/
structure Timestamp where
  sec : Nat
  nano : Nat
  deriving DecidableEq

/-- `FieldData` (packets.py:28): decoded field name, id and ordered params. -/
structure FieldData where
  name : String
  id : Nat
  params : List (String × Value)
  deriving DecidableEq

/-- `PacketData` (packets.py:121). -/
structure PacketData where
  type : String
  id : Nat
  timestamp : Timestamp
  info : List Nat
  fields : List FieldData
  deriving DecidableEq

/-- `OrderedDict` key assignment: replace in place when the key exists,
append otherwise. -/
def odInsert (ps : List (String × Value)) (k : String) (v : Value) :
    List (String × Value) :=
  if ps.any (fun p => p.1 = k) then
    ps.map (fun p => if p.1 = k then (k, v) else p)
  else ps ++ [(k, v)]

/-- The hardcoded packet header magic `DD CC BB AA` (packets.py:73). -/
def headerMagic : List Nat := [0xdd, 0xcc, 0xbb, 0xaa]

/-- The hardcoded packet footer bytes: zero checksum then `AA BB CC DD`
(packets.py:112). -/
def footerBytes : List Nat := [0, 0, 0, 0, 0xaa, 0xbb, 0xcc, 0xdd]

/-- The 8-byte garbled-footer pattern tolerated inside a field
(packets.py:42). -/
def footerPattern : List Nat := [0, 0, 0, 0, 0xaa, 0xbb, 0xcc, 0xdd]

/-- `PACKET_HEADER_STRUCT.pack_into` with the given size words field:
`<4s4sII4sII4s` (packets.py:11,71-80). -/
def packetHeaderBytes (ptype : String) (sizeWords pid : Nat) (ts : Timestamp)
    (info : List Nat) : List Nat :=
  headerMagic ++ pad4 (latin1Encode ptype) ++ leBytes 4 sizeWords ++
    leBytes 4 pid ++ [1, 0, 0, 0] ++ leBytes 4 ts.sec ++ leBytes 4 ts.nano ++
    pad4 info

/-- Payload of an encoded param value. -/
def paramPayload (v : Value) : List Nat := (encode_value v).2

/-- Pad length of an encoded param: `-(8 + len) % 4` (packets.py:99). -/
def paramPad (v : Value) : Nat := (4 - (8 + (paramPayload v).length) % 4) % 4

/-- Size in words of an encoded param (packets.py:102). -/
def paramWords (v : Value) : Nat :=
  (8 + (paramPayload v).length + paramPad v) / 4

/-- The bytes appended to the buffer for one param (packets.py:94-108):
`PARAM_HEADER_STRUCT` (`<4s3sB`) header, then the payload, then padding. -/
def encParamBytes (p : String × Value) : List Nat :=
  pad4 (latin1Encode p.1) ++ leBytes 3 (paramWords p.2) ++ [(encode_value p.2).1] ++
    paramPayload p.2 ++ List.replicate (paramPad p.2) 0

/-- The 8 header bytes of an encoded param. -/
def encParamHeader (p : String × Value) : List Nat :=
  pad4 (latin1Encode p.1) ++ leBytes 3 (paramWords p.2) ++ [(encode_value p.2).1]

/-- The payload-plus-padding bytes of an encoded param. -/
def encParamBody (p : String × Value) : List Nat :=
  paramPayload p.2 ++ List.replicate (paramPad p.2) 0

/-- The 12 header bytes of an encoded field carrying the given size words. -/
def encFieldHeaderW (f : FieldData) (w : Nat) : List Nat :=
  pad4 (latin1Encode f.name) ++ leBytes 3 w ++ [0] ++ leBytes 4 f.id

/-- Total byte length of a field's encoding: 12-byte header plus params. -/
def fieldByteLen (f : FieldData) : Nat :=
  12 + (bytesConcat (f.params.map encParamBytes)).length

/-- Size in words of an encoded field (packets.py:110). -/
def fieldWords (f : FieldData) : Nat := fieldByteLen f / 4

/-- The bytes of one encoded field after its size has been backpatched:
`FIELD_HEADER_STRUCT` (`<4s3s1sI`) header with the field size in words,
then the encoded params. -/
def encFieldBytes (f : FieldData) : List Nat :=
  pad4 (latin1Encode f.name) ++ leBytes 3 (fieldWords f) ++ [0] ++
    leBytes 4 f.id ++ bytesConcat (f.params.map encParamBytes)

/-- One step of the param-writing loop (packets.py:94-108): append the
encoded param and advance the offset by `param_size + param_padding_size`. -/
def encodeParamStep (st : List Nat × Nat) (p : String × Value) : List Nat × Nat :=
  (st.1 ++ encParamBytes p, st.2 + (8 + (paramPayload p.2).length + paramPad p.2))

/-- One step of the field-writing loop of `encode_packet` (packets.py:83-110),
operating on the buffer and offset exactly as the source does: append the
field header with a `00 00 00` size placeholder, append each encoded param,
then backpatch the 3 size bytes at `field_offset + 4`. -/
def encodeFieldStep (acc : List Nat × Nat) (f : FieldData) : List Nat × Nat :=
  let fieldOffset := acc.2
  let buf1 := acc.1 ++ pad4 (latin1Encode f.name) ++ [0, 0, 0] ++ [0] ++
    leBytes 4 f.id
  let offset1 := acc.2 + 12
  let st2 := f.params.foldl encodeParamStep (buf1, offset1)
  (setSlice st2.1 (fieldOffset + 4) (leBytes 3 ((st2.2 - fieldOffset) / 4)), st2.2)

/-- `encode_packet` (packets.py:67-116): header with a zero size placeholder,
the encoded fields (each backpatched in turn), the footer, and finally the
backpatched total size words at bytes 8-11. -/
def encode_packet (ptype : String) (pid : Nat) (ts : Timestamp)
    (info : List Nat) (fields : List FieldData) : List Nat :=
  let buf0 := packetHeaderBytes ptype 0 pid ts info
  let st := fields.foldl encodeFieldStep (buf0, 32)
  let buf1 := st.1 ++ footerBytes
  setSlice buf1 8 (leBytes 4 ((st.2 + 8) / 4))

/-- The fully-backpatched compositional form of an encoded packet; proved
equal to `encode_packet` below. -/
def packetBytes (ptype : String) (pid : Nat) (ts : Timestamp)
    (info : List Nat) (fields : List FieldData) : List Nat :=
  packetHeaderBytes ptype
    ((32 + (bytesConcat (fields.map encFieldBytes)).length + 8) / 4) pid ts info ++
    bytesConcat (fields.map encFieldBytes) ++ footerBytes

/-- The param-decoding loop of `decode_fields` (packets.py:40-55), with fuel.
Returns the accumulated params, the final offset and the warning count, or
a decode exception; `none` models divergence (the loop fails to advance).
Before each param header the 8-byte garbled-footer pattern is tolerated:
a `DecodeWarning` is emitted and 8 bytes are skipped.  A param size that
advances past `param_limit` raises (packets.py:54-55); the `DecodeError`
constructor itself fails, so the exception is a `TypeError`. -/
def decodeParamsF : Nat → List Nat → Nat → Nat → List (String × Value) → Nat →
    Option (Except PyExc (List (String × Value) × Nat × Nat))
  | 0, _, _, _, _, _ => none
  | fuel + 1, buf, offset, plimit, params, w =>
    if offset < plimit then
      if readSlice buf offset 8 = footerPattern then
        decodeParamsF fuel buf (offset + 8) plimit params (w + 1)
      else if offset + 8 ≤ buf.length then
        match decode_value (readLE (readSlice buf (offset + 7) 1))
            (readSlice buf (offset + 8)
              (readLE (readSlice buf (offset + 4) 3) * 4 - 8)) with
        | .error e => some (.error e)
        | .ok v =>
          if offset + readLE (readSlice buf (offset + 4) 3) * 4 > plimit then
            some (.error (.typeError "DecodeError: parameter overflow"))
          else
            decodeParamsF fuel buf
              (offset + readLE (readSlice buf (offset + 4) 3) * 4) plimit
              (odInsert params (decode_identifier (readSlice buf offset 4)) v) w
      else some (.error .structError)
    else some (.ok (params, offset, w))

/-- The field-decoding loop of `decode_fields` (packets.py:31-62), with fuel.
`flimit` is an `Int` because the Python value `size - 32 - 8` can be
negative.  A final offset past `field_limit` raises (packets.py:59-60);
again the `DecodeError` constructor itself fails with `TypeError`. -/
def decodeFieldsF : Nat → List Nat → Nat → Int → List FieldData → Nat →
    Option (Except PyExc (List FieldData × Nat))
  | 0, _, _, _, _, _ => none
  | fuel + 1, buf, offset, flimit, fields, w =>
    if (offset : Int) < flimit then
      if offset + 12 ≤ buf.length then
        match decodeParamsF fuel buf (offset + 12)
            (offset + readLE (readSlice buf (offset + 4) 3) * 4) [] w with
        | none => none
        | some (.error e) => some (.error e)
        | some (.ok (params, offset1, w1)) =>
          decodeFieldsF fuel buf offset1 flimit
            (fields ++ [⟨decode_identifier (readSlice buf offset 4),
              readLE (readSlice buf (offset + 8) 4), params⟩]) w1
      else some (.error .structError)
    else
      if (offset : Int) > flimit then
        some (.error (.typeError "DecodeError: field overflow"))
      else some (.ok (fields, w))

/-- The data captured by the `decode_packet_body` closure returned from
`decode_packet_cps` (packets.py:143-160). -/
structure HeaderInfo where
  ptype : String
  pid : Nat
  timestamp : Timestamp
  info : List Nat
  sizeRemaining : Int
  deriving DecidableEq

/-- `decode_packet_cps` (packets.py:124-163), first phase: unpack the 32-byte
header (`struct.unpack` demands exactly 32 bytes), check the magic, and
return the header data together with `size_remaining = size_words*4 - 32`.
On a bad magic the source raises `DecodeError(...)` (packets.py:138), whose
constructor — `CommandMixin.__init__`, errors.py:11 — requires five
arguments and is passed one, so the observable exception is `TypeError`. -/
def decode_packet_cps (hbuf : List Nat) : Except PyExc HeaderInfo :=
  if hbuf.length = 32 then
    if readSlice hbuf 0 4 ≠ headerMagic then
      .error (.typeError "DecodeError: invalid packet header")
    else
      .ok ⟨decode_identifier (readSlice hbuf 4 4), readLE (readSlice hbuf 12 4),
        ⟨readLE (readSlice hbuf 20 4), readLE (readSlice hbuf 24 4)⟩,
        readSlice hbuf 28 4, (readLE (readSlice hbuf 8 4) * 4 : Int) - 32⟩
  else .error .structError

/-- `PACKET_FOOTER_STRUCT.unpack_from(body, size_remaining - 8)`
(packets.py:147-152): a negative offset counts from the end of the buffer;
the checksum word is read but never used; the footer magic must be
`AA BB CC DD`, else the (broken) `DecodeError` constructor raises
`TypeError`. -/
def footerOffset (bodyLen : Nat) (off : Int) : Int :=
  if off < 0 then (bodyLen : Int) + off else off

def checkFooter (body : List Nat) (off : Int) : Except PyExc Unit :=
  if footerOffset body.length off < 0 ∨
      (body.length : Int) < footerOffset body.length off + 8 then
    .error .structError
  else
    if readSlice body ((footerOffset body.length off).toNat + 4) 4 ≠
        [0xaa, 0xbb, 0xcc, 0xdd] then
      .error (.typeError "DecodeError: invalid packet footer")
    else .ok ()

/-- The `decode_packet_body` closure (packets.py:143-160): check for body
overflow, decode the fields up to `size_remaining - 8`, then check the
footer and assemble the `PacketData`.  The result also carries the number
of `DecodeWarning`s emitted. -/
def decode_packet_body (h : HeaderInfo) (fuel : Nat) (body : List Nat) :
    Option (Except PyExc (PacketData × Nat)) :=
  if (body.length : Int) > h.sizeRemaining then
    some (.error (.typeError "DecodeError: packet body overflow"))
  else
    match decodeFieldsF fuel body 0 (h.sizeRemaining - 8) [] 0 with
    | none => none
    | some (.error e) => some (.error e)
    | some (.ok (fields, w)) =>
      match checkFooter body (h.sizeRemaining - 8) with
      | .error e => some (.error e)
      | .ok _ => some (.ok (⟨h.ptype, h.pid, h.timestamp, h.info, fields⟩, w))

/-- `decode_packet` (packets.py:166-168): run the continuation-passing
decoder on the first 32 bytes, then the body closure on the rest. -/
def decode_packet (fuel : Nat) (buf : List Nat) :
    Option (Except PyExc (PacketData × Nat)) :=
  match decode_packet_cps (readSlice buf 0 32) with
  | .error e => some (.error e)
  | .ok h => decode_packet_body h fuel (buf.drop 32)

/-- A legal identifier: at most 4 latin-1 characters, not ending in a space
or NUL (so that wire padding normalisation is the identity). -/
def isLegalName (s : String) : Bool :=
  s.data.length ≤ 4 && s.data.all (fun c => c.toNat < 256) &&
    (match s.data.getLast? with
     | none => true
     | some c => decide (c.toNat ≠ 0x20 ∧ c.toNat ≠ 0))

/-- A param value encodable by the value codec such that decoding is exact:
integers within 32-bit range, strings latin-1 without a trailing NUL (the
padding would be absorbed into it), raw byte strings of 4-byte-multiple
length (the padding would extend them), arrays elementwise in range. -/
def isLegalValue : Value → Bool
  | .int z => decide (-(2 ^ 31 : Int) ≤ z ∧ z < 2 ^ 32)
  | .str s => s.data.all (fun c => c.toNat < 256) &&
      (match s.data.getLast? with
       | none => true
       | some c => decide (c.toNat ≠ 0))
  | .raw b => b.length % 4 == 0 && b.all (fun x => x < 256)
  | .intArray zs =>
    if zs.any (fun z => z < 0) then
      zs.all (fun z => decide (-(2 ^ 31 : Int) ≤ z ∧ z < 2 ^ 31))
    else zs.all (fun z => decide (z < (2 ^ 32 : Int)))

/-- Legal param list: legal names and values, distinct keys, and each
encoded param small enough for its 3-byte size field. -/
def isLegalParams (ps : List (String × Value)) : Bool :=
  ps.all (fun p => isLegalName p.1 && isLegalValue p.2 &&
    decide ((encParamBytes p).length < 2 ^ 24)) &&
    (ps.map Prod.fst).Nodup

/-- Legal field: legal name and params, 32-bit id, and encoded size within
the 3-byte field size (with room for the +2 words of claim C3). -/
def isLegalField (f : FieldData) : Bool :=
  isLegalName f.name && f.id < 2 ^ 32 && isLegalParams f.params &&
    decide (fieldByteLen f < 2 ^ 25)

/-- Legal packet inputs for `encode_packet`. -/
def isLegalPacket (ptype : String) (pid : Nat) (ts : Timestamp)
    (info : List Nat) (fields : List FieldData) : Bool :=
  isLegalName ptype && pid < 2 ^ 32 && ts.sec < 2 ^ 32 && ts.nano < 2 ^ 32 &&
    info.length == 4 && info.all (fun x => x < 256) &&
    fields.all isLegalField &&
    decide (32 + (bytesConcat (fields.map encFieldBytes)).length + 8 < 2 ^ 33)

/-- Fuel sufficient to decode an encoded packet: one unit per field, plus
per field enough for its params and the final loop exits (with slack for
one embedded garbled footer). -/
def decodeFuel (fields : List FieldData) : Nat :=
  fields.foldr (fun f acc => 1 + max (f.params.length + 2) acc) 1

/-- The bytes of field `f` with the garbled 8-byte footer pattern embedded
at the boundary after its first `j` params, the declared field size being
2 words larger to cover them (the known Axis-node corruption). -/
def encFieldBytesCorrupt (f : FieldData) (j : Nat) : List Nat :=
  pad4 (latin1Encode f.name) ++ leBytes 3 (fieldWords f + 2) ++ [0] ++
    leBytes 4 f.id ++ bytesConcat ((f.params.take j).map encParamBytes) ++
    footerPattern ++ bytesConcat ((f.params.drop j).map encParamBytes)

/-- An otherwise well-formed packet whose field `f` (preceded by the fields
`fpre` and followed by `fpost`) carries the garbled footer pattern at the
param boundary after its param `j`: the total size is 2 words larger,
matching the embedded 8 bytes. -/
def corruptPacketBytes (ptype : String) (pid : Nat) (ts : Timestamp)
    (info : List Nat) (fpre : List FieldData) (f : FieldData)
    (fpost : List FieldData) (j : Nat) : List Nat :=
  packetHeaderBytes ptype
    ((32 + (bytesConcat (fpre.map encFieldBytes) ++ encFieldBytesCorrupt f j ++
      bytesConcat (fpost.map encFieldBytes)).length + 8) / 4) pid ts info ++
    (bytesConcat (fpre.map encFieldBytes) ++ encFieldBytesCorrupt f j ++
      bytesConcat (fpost.map encFieldBytes)) ++ footerBytes

/-- Client connection configuration flags (client.py:58). -/
structure ClientCfg where
  auto_erro : Bool
  auto_warn : Bool
  auto_ackn : Bool
  deriving DecidableEq

/-- The data carried by a raised `CommandError` (client.py:175): the five
constructor arguments `(packet_type, field.name, field.id, ERRO, ERRC)`. -/
structure CommandErrorData where
  packet_type : String
  field_name : String
  field_id : Nat
  message : Option Value
  code : Option Value
  deriving DecidableEq

/-- The data carried by an emitted `CommandWarning` (client.py:181). -/
structure CommandWarningData where
  packet_type : String
  field_name : String
  field_id : Nat
  message : Option Value
  code : Option Value
  deriving DecidableEq

/-- A packet as seen by the client dispatch logic. -/
structure CPacket where
  type : String
  fields : List FieldData
  deriving DecidableEq

/-- `dict.get(key)` on a params mapping. -/
def getParam (ps : List (String × Value)) (k : String) : Option Value :=
  (ps.find? (fun p => p.1 = k)).map (fun p => p.2)

/-- The outcome of `recv_field` processing one delivered packet: the
caller's coroutine raises, returns params, or keeps waiting for the next
packet; each outcome carries the `CommandWarning`s emitted along the way. -/
inductive RecvOutcome where
  | raised (warns : List CommandWarningData) (e : CommandErrorData)
  | returned (warns : List CommandWarningData) (params : List (String × Value))
  | waiting (warns : List CommandWarningData)
  deriving DecidableEq

/-- Does a field match the `recv_field(packet_type, field_name, field_id?)`
request (client.py:196)? -/
def fieldMatches (fname : String) (fid : Option Nat) (f : FieldData) : Bool :=
  f.name == fname && (match fid with | none => true | some i => f.id == i)

/-- The warning emitted by `_handle_warn` (client.py:177-181), if any. -/
def warnEmission (cfg : ClientCfg) (ptype : String) (f : FieldData) :
    List CommandWarningData :=
  if cfg.auto_warn ∧ ((getParam f.params "WARN").isSome ∨
      (getParam f.params "WARC").isSome) then
    [⟨ptype, f.name, f.id, getParam f.params "WARN", getParam f.params "WARC"⟩]
  else []

/-- The field loop of `recv_field` (client.py:195-207) over one packet's
fields: find a matching field, run the auto-handlers in order
(`_handle_erro` raises when ERRO/ERRC is present; `_handle_warn` emits a
warning when WARN/WARC is present and skips the field when its *name* is
`WARN`; `_handle_ackn` skips when ACKN is present), and return the first
surviving field's params. -/
def scanFields (cfg : ClientCfg) (ptype fname : String) (fid : Option Nat) :
    List FieldData → List CommandWarningData → RecvOutcome
  | [], ws => .waiting ws
  | f :: rest, ws =>
    if fieldMatches fname fid f then
      if cfg.auto_erro ∧ ((getParam f.params "ERRO").isSome ∨
          (getParam f.params "ERRC").isSome) then
        .raised ws ⟨ptype, f.name, f.id, getParam f.params "ERRO",
          getParam f.params "ERRC"⟩
      else
        let ws1 := ws ++ warnEmission cfg ptype f
        if cfg.auto_warn ∧ f.name = "WARN" then
          scanFields cfg ptype fname fid rest ws1
        else if cfg.auto_ackn ∧ (getParam f.params "ACKN").isSome then
          scanFields cfg ptype fname fid rest ws1
        else .returned ws1 f.params
    else scanFields cfg ptype fname fid rest ws

/-- One delivered packet processed by a pending `recv_field` caller
(client.py:190-207): a packet of the wrong type leaves the caller waiting;
otherwise its fields are scanned in wire order. -/
def recvStep (cfg : ClientCfg) (ptype fname : String) (fid : Option Nat)
    (pkt : CPacket) : RecvOutcome :=
  if pkt.type = ptype then scanFields cfg ptype fname fid pkt.fields []
  else .waiting []

/-- The reader fan-out (client.py:157-159): every pending `recv_field`
caller receives the same packet and processes it independently. -/
def deliverPacket (cfg : ClientCfg) (reqs : List (String × String))
    (pkt : CPacket) : List RecvOutcome :=
  reqs.map (fun r => recvStep cfg r.1 r.2 none pkt)

/-- Does this outcome return params to the caller? -/
def isReturned : RecvOutcome → Bool
  | .returned _ _ => true
  | _ => false

/-- Number of callers that return from one delivery. -/
def countReturned (outs : List RecvOutcome) : Nat :=
  (outs.filter isReturned).length

/-- One event observed by the reader task's `read_packet` call. -/
inductive ReadEvent where
  | pkt (p : CPacket)
  | rerr (e : Nat)
  | cancelled
  deriving DecidableEq

/-- A waiter slot: `none` while pending, `some` once resolved with a packet
or an exception. -/
def WaiterSlot : Type := Option (Except Nat CPacket)

instance : DecidableEq WaiterSlot :=
  inferInstanceAs (DecidableEq (Option (Except Nat CPacket)))

/-- Resolve every *pending* waiter with the given result (already-done
waiters are skipped: `_active_waiters`, client.py:96-97). -/
def resolveWaiters (ws : List WaiterSlot) (r : Except Nat CPacket) :
    List WaiterSlot :=
  ws.map (fun w => match w with | none => some r | some x => some x)

/-- The reader loop `_run_reader` (client.py:151-167) over a script of read
events: a packet or a read error resolves every pending waiter and the
loop *continues*; only cancellation exits the loop.  Returns the waiter
slots and the number of reads performed. -/
def runReader : List ReadEvent → List WaiterSlot → List WaiterSlot × Nat
  | [], ws => (ws, 0)
  | .cancelled :: _, ws => (ws, 1)
  | .pkt p :: evs, ws =>
    let r := runReader evs (resolveWaiters ws (.ok p))
    (r.1, r.2 + 1)
  | .rerr e :: evs, ws =>
    let r := runReader evs (resolveWaiters ws (.error e))
    (r.1, r.2 + 1)

/-- `_gen_id` (client.py:81-83): increment the counter and return it. -/
def gen_id (c : Nat) : Nat × Nat := (c + 1, c + 1)

/-- The id assignments made by one `send` call (client.py:211-230): one id
per field in order, then a separate draw for the packet id. -/
def sendOne (c : Nat) (names : List String) : Nat × List Nat × Nat :=
  let st := names.foldl (fun (acc : Nat × List Nat) _ =>
    let g := gen_id acc.1
    (g.1, acc.2 ++ [g.2])) (c, [])
  let g := gen_id st.1
  (g.1, st.2, g.2)

/-- The id assignments of a sequence of `send` calls on one connection. -/
def sendSeq : Nat → List (List String) → List (List Nat × Nat)
  | _, [] => []
  | c, ns :: rest =>
    let s := sendOne c ns
    (s.2.1, s.2.2) :: sendSeq s.1 rest

/-- The flat sequence of ids handed out: each send's field ids followed by
its packet id. -/
def idTrace (sends : List (List Nat × Nat)) : List Nat :=
  sends.foldr (fun s acc => s.1 ++ s.2 :: acc) []

/-! ## Byte-level helper lemmas -/

theorem leBytes_length (k n : Nat) : (leBytes k n).length = k := by
  induction k generalizing n with
  | zero => rfl
  | succ k ih => simp [leBytes, ih]

theorem readLE_leBytes (k n : Nat) (h : n < 2 ^ (8 * k)) :
    readLE (leBytes k n) = n := by
  induction k generalizing n with
  | zero =>
    simp [leBytes, readLE]
    omega
  | succ k ih =>
    have hdiv : n / 256 < 2 ^ (8 * k) := by
      have h2 : 2 ^ (8 * (k + 1)) = 2 ^ (8 * k) * 256 := by ring
      rw [h2] at h
      omega
    simp [leBytes, readLE, ih (n / 256) hdiv]
    omega

theorem readSlice_append (a b : List Nat) (j k : Nat) :
    readSlice (a ++ b) (a.length + j) k = readSlice b j k := by
  simp [readSlice, List.drop_append]

theorem readSlice_append_zero (a b : List Nat) (k : Nat) :
    readSlice (a ++ b) a.length k = readSlice b 0 k := by
  have := readSlice_append a b 0 k
  simpa using this

theorem readSlice_front (a b : List Nat) (j k : Nat) (h : j + k ≤ a.length) :
    readSlice (a ++ b) j k = readSlice a j k := by
  unfold readSlice
  rw [List.drop_append_of_le_length (by omega)]
  rw [List.take_append_of_le_length (by simp; omega)]

theorem take_append_ge (a b : List Nat) (n : Nat) (h : a.length ≤ n) :
    (a ++ b).take n = a ++ b.take (n - a.length) := by
  have hn : n = a.length + (n - a.length) := by omega
  rw [hn, List.take_append]
  simp

theorem readSlice_exact (a b : List Nat) (k : Nat) (h : a.length = k) :
    readSlice (a ++ b) 0 k = a := by
  unfold readSlice
  rw [List.drop_zero, List.take_append_of_le_length (by omega)]
  simp [← h]

theorem readSlice_length_le (buf : List Nat) (off k : Nat) :
    (readSlice buf off k).length ≤ k := by
  simp [readSlice]

theorem bytesConcat_cons (b : List Nat) (bs : List (List Nat)) :
    bytesConcat (b :: bs) = b ++ bytesConcat bs := rfl

theorem bytesConcat_append (xs ys : List (List Nat)) :
    bytesConcat (xs ++ ys) = bytesConcat xs ++ bytesConcat ys := by
  induction xs with
  | nil => rfl
  | cons x xs ih => simp [bytesConcat_cons, ih]

theorem pad4_length (bs : List Nat) : (pad4 bs).length = 4 := by
  simp [pad4]

theorem latin1Encode_length (s : String) :
    (latin1Encode s).length = s.data.length := by
  simp [latin1Encode]

theorem pad4_eq (bs : List Nat) (h : bs.length ≤ 4) :
    pad4 bs = bs ++ List.replicate (4 - bs.length) 0 := by
  unfold pad4
  rw [take_append_ge bs _ 4 h, List.take_replicate]
  congr 1
  congr 1
  omega

/-! ## Identifier round-trip -/

theorem charOfNat_toNat (c : Char) (h : c.toNat < 256) :
    Char.ofNat c.toNat = c := by
  unfold Char.ofNat
  have hv : Nat.isValidChar c.toNat := by left; omega
  rw [dif_pos hv]
  apply Char.ext
  show UInt32.ofNat' c.toNat _ = c.val
  apply UInt32.ext
  show (UInt32.ofNat' c.toNat _).toNat = c.val.toNat
  simp [UInt32.ofNat', UInt32.toNat]
  rfl

theorem dropWhile_replicate_zero {p : Nat → Bool} (hp : p 0 = true)
    (m : Nat) (l : List Nat) :
    (List.replicate m 0 ++ l).dropWhile p = l.dropWhile p := by
  induction m with
  | zero => rfl
  | succ m ih =>
    rw [List.replicate_succ, List.cons_append, List.dropWhile_cons_of_pos hp]
    exact ih

theorem rstripSpNul_append_zeros (bs : List Nat) (m : Nat) :
    rstripSpNul (bs ++ List.replicate m 0) = rstripSpNul bs := by
  unfold rstripSpNul
  rw [List.reverse_append, List.reverse_replicate]
  rw [dropWhile_replicate_zero (by simp) m bs.reverse]

theorem rstripSpNul_eq_self (bs : List Nat)
    (h : ∀ b, bs.getLast? = some b → b ≠ 0x20 ∧ b ≠ 0) :
    rstripSpNul bs = bs := by
  unfold rstripSpNul
  cases hb : bs.reverse with
  | nil =>
    have : bs = [] := by simpa using congrArg List.reverse hb
    simp [this]
  | cons x xs =>
    have hlast : bs.getLast? = some x := by
      rw [← List.head?_reverse, hb]
      rfl
    have hx := h x hlast
    rw [List.dropWhile_cons_of_neg (by simp [hx.1, hx.2])]
    rw [← hb, List.reverse_reverse]

theorem latin1_roundtrip (s : String) (h : ∀ c ∈ s.data, c.toNat < 256) :
    latin1Decode (latin1Encode s) = s := by
  unfold latin1Decode latin1Encode
  rw [List.map_map]
  have heq : s.data.map (Char.ofNat ∘ Char.toNat) = s.data := by
    rw [show s.data = s.data.map id by simp]
    rw [List.map_map]
    apply List.map_congr_left
    intro c hc
    simp at hc
    exact charOfNat_toNat c (h c (by simpa using hc))
  rw [heq]

theorem rstripNul_append_zeros (bs : List Nat) (m : Nat) :
    rstripNul (bs ++ List.replicate m 0) = rstripNul bs := by
  unfold rstripNul
  rw [List.reverse_append, List.reverse_replicate]
  rw [dropWhile_replicate_zero (by simp) m bs.reverse]

theorem rstripNul_eq_self (bs : List Nat)
    (h : ∀ b, bs.getLast? = some b → b ≠ 0) :
    rstripNul bs = bs := by
  unfold rstripNul
  cases hb : bs.reverse with
  | nil =>
    have : bs = [] := by simpa using congrArg List.reverse hb
    simp [this]
  | cons x xs =>
    have hlast : bs.getLast? = some x := by
      rw [← List.head?_reverse, hb]
      rfl
    rw [List.dropWhile_cons_of_neg (by simp [h x hlast])]
    rw [← hb, List.reverse_reverse]

theorem decode_identifier_encode (s : String) (h : isLegalName s = true) :
    decode_identifier (pad4 (latin1Encode s)) = s := by
  unfold isLegalName at h
  simp only [Bool.and_eq_true, List.all_eq_true, decide_eq_true_eq] at h
  obtain ⟨⟨hlen, hchars⟩, hlast⟩ := h
  unfold decode_identifier
  rw [pad4_eq _ (by rw [latin1Encode_length]; omega)]
  rw [rstripSpNul_append_zeros]
  rw [rstripSpNul_eq_self]
  · exact latin1_roundtrip s (fun c hc => hchars c hc)
  · intro b hb
    unfold latin1Encode at hb
    rw [List.getLast?_map] at hb
    cases hg : s.data.getLast? with
    | none => rw [hg] at hb; simp at hb
    | some c =>
      rw [hg] at hb
      simp at hb
      rw [hg] at hlast
      simp at hlast
      omega

/-! ## Value codec round-trip -/

theorem readLEsigned_def (bs : List Nat) :
    readLEsigned bs = if 2 * readLE bs < 2 ^ (8 * bs.length) then (readLE bs : Int)
      else (readLE bs : Int) - 2 ^ (8 * bs.length) := rfl

theorem encodeI32_roundtrip (z : Int) (h1 : -(2 ^ 31) ≤ z) (h2 : z < 2 ^ 31) :
    readLEsigned (encodeI32 z) = z := by
  unfold encodeI32
  have hmod : z % (2 ^ 32 : Int) = if 0 ≤ z then z else z + 2 ^ 32 := by
    split <;> omega
  have hnn : (0 : Int) ≤ z % (2 ^ 32 : Int) := by omega
  have hlt : z % (2 ^ 32 : Int) < 2 ^ 32 := by omega
  have hr : readLE (leBytes 4 (z % (2 ^ 32 : Int)).toNat) = (z % (2 ^ 32 : Int)).toNat :=
    readLE_leBytes 4 _ (by omega)
  rw [readLEsigned_def, leBytes_length, hr]
  split <;> omega

theorem readLE_leBytes4_int (z : Int) (h1 : 0 ≤ z) (h2 : z < 2 ^ 32) :
    (readLE (leBytes 4 z.toNat) : Int) = z := by
  rw [readLE_leBytes 4 z.toNat (by omega)]
  omega

theorem length_eq_four (w : List Nat) (h : w.length = 4) :
    ∃ a b c d, w = [a, b, c, d] := by
  match w, h with
  | [a, b, c, d], _ => exact ⟨a, b, c, d, rfl⟩

theorem chunks4_concat (l : List (List Nat)) (h : ∀ w ∈ l, w.length = 4) :
    chunks4 (bytesConcat l) = l := by
  induction l with
  | nil => rfl
  | cons w ws ih =>
    obtain ⟨a, b, c, d, hw⟩ := length_eq_four w (h w (by simp))
    rw [bytesConcat_cons, hw]
    show chunks4 (a :: b :: c :: d :: bytesConcat ws) = [a, b, c, d] :: ws
    rw [chunks4]
    rw [ih (fun x hx => h x (by simp [hx]))]

theorem paramPayload_int_length (z : Int) : (paramPayload (.int z)).length = 4 := by
  simp only [paramPayload, encode_value]
  split <;> simp [encodeI32, leBytes_length]

theorem paramPad_int (z : Int) : paramPad (.int z) = 0 := by
  unfold paramPad
  rw [paramPayload_int_length]

theorem bytesConcat_length_four {α : Type} (f : α → List Nat) (l : List α)
    (h : ∀ x ∈ l, (f x).length = 4) :
    (bytesConcat (l.map f)).length = 4 * l.length := by
  induction l with
  | nil => rfl
  | cons x xs ih =>
    rw [List.map_cons, bytesConcat_cons, List.length_append]
    rw [h x (by simp), ih (fun y hy => h y (by simp [hy]))]
    simp
    ring

theorem paramPayload_intArray_length (zs : List Int) :
    (paramPayload (.intArray zs)).length = 4 * zs.length := by
  simp only [paramPayload, encode_value]
  have h4 : ∀ (g : Int → List Nat), (∀ z, (g z).length = 4) →
      (bytesConcat (zs.map g)).length = 4 * zs.length := by
    intro g hg
    exact bytesConcat_length_four g zs (fun z _ => hg z)
  split
  · exact h4 encodeI32 (fun z => leBytes_length 4 _)
  · exact h4 _ (fun z => leBytes_length 4 _)

theorem paramPad_intArray (zs : List Int) : paramPad (.intArray zs) = 0 := by
  unfold paramPad
  rw [paramPayload_intArray_length]
  omega

theorem paramPayload_raw (b : List Nat) : paramPayload (.raw b) = b := rfl

theorem paramPad_raw (b : List Nat) (h : b.length % 4 = 0) :
    paramPad (.raw b) = 0 := by
  unfold paramPad
  rw [paramPayload_raw]
  omega

theorem map_id_of_eq {A : Type} (l : List A) (f : A → A)
    (h : ∀ x ∈ l, f x = x) : l.map f = l := by
  induction l with
  | nil => rfl
  | cons x xs ih =>
    rw [List.map_cons, h x (by simp), ih (fun y hy => h y (by simp [hy]))]

theorem map_map_id {A B : Type} (l : List A) (f : A → B) (g : B → A)
    (h : ∀ x ∈ l, g (f x) = x) : (l.map f).map g = l := by
  induction l with
  | nil => rfl
  | cons x xs ih =>
    rw [List.map_cons, List.map_cons, h x (by simp),
      ih (fun y hy => h y (by simp [hy]))]

theorem decode_value_tag4 (p : List Nat) :
    decode_value 4 p = .ok (.intArray ((chunks4 p).map readLEsigned)) := rfl

theorem decode_value_tag5 (p : List Nat) :
    decode_value 5 p =
      .ok (.intArray ((chunks4 p).map (fun w => (readLE w : Int)))) := rfl

theorem decode_encode_value (v : Value) (h : isLegalValue v = true) :
    decode_value (encode_value v).1
      ((encode_value v).2 ++ List.replicate (paramPad v) 0) = .ok v := by
  cases v with
  | int z =>
    rw [paramPad_int]
    unfold isLegalValue at h
    simp only [decide_eq_true_eq] at h
    by_cases hz : z < 0
    · simp only [encode_value, if_pos hz]
      show decode_value 0 (encodeI32 z ++ []) = .ok (.int z)
      rw [List.append_nil]
      unfold decode_value
      rw [encodeI32_roundtrip z (by omega) (by omega)]
    · simp only [encode_value, if_neg hz]
      show decode_value 1 (leBytes 4 z.toNat ++ []) = .ok (.int z)
      rw [List.append_nil]
      unfold decode_value
      rw [readLE_leBytes4_int z (by omega) (by omega)]
  | str s =>
    unfold isLegalValue at h
    simp only [Bool.and_eq_true, List.all_eq_true, decide_eq_true_eq] at h
    show decode_value 2 (latin1Encode s ++ List.replicate (paramPad (.str s)) 0) =
      .ok (.str s)
    unfold decode_value
    rw [rstripNul_append_zeros]
    rw [rstripNul_eq_self]
    · rw [latin1_roundtrip s (fun c hc => h.1 c hc)]
    · intro b hb
      unfold latin1Encode at hb
      rw [List.getLast?_map] at hb
      cases hg : s.data.getLast? with
      | none => rw [hg] at hb; simp at hb
      | some c =>
        rw [hg] at hb
        simp at hb
        have := h.2
        rw [hg] at this
        simp at this
        omega
  | raw b =>
    unfold isLegalValue at h
    simp only [Bool.and_eq_true, List.all_eq_true, beq_iff_eq] at h
    rw [paramPad_raw b h.1]
    show decode_value 3 (b ++ []) = .ok (.raw b)
    rw [List.append_nil]
    rfl
  | intArray zs =>
    rw [paramPad_intArray]
    simp only [isLegalValue] at h
    by_cases hneg : zs.any (fun z => decide (z < 0)) = true
    · rw [if_pos hneg] at h
      simp only [List.all_eq_true, decide_eq_true_eq] at h
      simp only [encode_value, if_pos hneg]
      show decode_value 4 (bytesConcat (zs.map encodeI32) ++ []) =
        .ok (.intArray zs)
      rw [List.append_nil, decode_value_tag4]
      rw [chunks4_concat _ (by
        intro w hw
        simp at hw
        obtain ⟨z, _, hz⟩ := hw
        rw [← hz]
        exact leBytes_length 4 _)]
      have hmap : (zs.map encodeI32).map readLEsigned = zs := by
        apply map_map_id
        intro z hz
        have hb := h z hz
        exact encodeI32_roundtrip z (by omega) (by omega)
      rw [hmap]
    · rw [if_neg hneg] at h
      simp only [List.all_eq_true, decide_eq_true_eq] at h
      simp only [encode_value, if_neg hneg]
      show decode_value 5
        (bytesConcat (zs.map (fun z => leBytes 4 z.toNat)) ++ []) =
        .ok (.intArray zs)
      rw [List.append_nil, decode_value_tag5]
      rw [chunks4_concat _ (by
        intro w hw
        simp at hw
        obtain ⟨z, _, hz⟩ := hw
        rw [← hz]
        exact leBytes_length 4 _)]
      have hmap : (zs.map (fun z => leBytes 4 z.toNat)).map
          (fun w => (readLE w : Int)) = zs := by
        apply map_map_id
        intro z hz
        have hnn : ¬ z < 0 := by
          simp only [List.any_eq_true] at hneg
          push_neg at hneg
          have := hneg z hz
          simpa using this
        exact readLE_leBytes4_int z (by omega) (h z hz)
      rw [hmap]

/-! ## Structure of encoded params, fields and packets -/

theorem encParamBytes_length (p : String × Value) :
    (encParamBytes p).length = 8 + (paramPayload p.2).length + paramPad p.2 := by
  unfold encParamBytes
  simp [pad4_length, leBytes_length]
  omega

theorem paramPad_mod (v : Value) :
    (8 + (paramPayload v).length + paramPad v) % 4 = 0 := by
  unfold paramPad
  omega

theorem paramWords_mul4 (v : Value) :
    paramWords v * 4 = 8 + (paramPayload v).length + paramPad v := by
  unfold paramWords
  have := paramPad_mod v
  omega

theorem encParamBytes_mod4 (p : String × Value) :
    (encParamBytes p).length % 4 = 0 := by
  rw [encParamBytes_length]
  exact paramPad_mod p.2

theorem paramsBytes_mod4 (ps : List (String × Value)) :
    (bytesConcat (ps.map encParamBytes)).length % 4 = 0 := by
  induction ps with
  | nil => rfl
  | cons p ps ih =>
    rw [List.map_cons, bytesConcat_cons, List.length_append]
    have := encParamBytes_mod4 p
    omega

theorem fieldByteLen_mod4 (f : FieldData) : fieldByteLen f % 4 = 0 := by
  unfold fieldByteLen
  have := paramsBytes_mod4 f.params
  omega

theorem fieldWords_mul4 (f : FieldData) :
    fieldWords f * 4 = fieldByteLen f := by
  unfold fieldWords
  have := fieldByteLen_mod4 f
  omega

theorem encFieldBytes_length (f : FieldData) :
    (encFieldBytes f).length = fieldByteLen f := by
  unfold encFieldBytes fieldByteLen
  simp [pad4_length, leBytes_length]
  omega

theorem fieldsBytes_mod4 (fs : List FieldData) :
    (bytesConcat (fs.map encFieldBytes)).length % 4 = 0 := by
  induction fs with
  | nil => rfl
  | cons f fs ih =>
    rw [List.map_cons, bytesConcat_cons, List.length_append]
    rw [encFieldBytes_length]
    have := fieldByteLen_mod4 f
    omega

theorem packetHeaderBytes_length (ptype : String) (w pid : Nat)
    (ts : Timestamp) (info : List Nat) :
    (packetHeaderBytes ptype w pid ts info).length = 32 := by
  unfold packetHeaderBytes headerMagic
  simp [pad4_length, leBytes_length]

/-! ## The operational encoder equals its compositional form -/

theorem setSlice_append_right (a b r : List Nat) (k : Nat) :
    setSlice (a ++ b) (a.length + k) r = a ++ setSlice b k r := by
  unfold setSlice
  rw [take_append_ge a b _ (by omega)]
  have hd : a.length + k + r.length = a.length + (k + r.length) := by omega
  rw [hd, List.drop_append]
  have ht : a.length + k - a.length = k := by omega
  rw [ht]
  simp

theorem setSlice_append_left (a b r : List Nat) (k : Nat)
    (hfit : k + r.length ≤ a.length) :
    setSlice (a ++ b) k r = setSlice a k r ++ b := by
  unfold setSlice
  rw [List.take_append_of_le_length (by omega)]
  rw [List.drop_append_of_le_length (by omega)]
  simp

theorem paramsFold_eq (ps : List (String × Value)) (b : List Nat) (o : Nat) :
    ps.foldl encodeParamStep (b, o) =
      (b ++ bytesConcat (ps.map encParamBytes),
        o + (bytesConcat (ps.map encParamBytes)).length) := by
  induction ps generalizing b o with
  | nil => simp [bytesConcat]
  | cons p ps ih =>
    rw [List.foldl_cons]
    show ps.foldl encodeParamStep
      (b ++ encParamBytes p, o + (8 + (paramPayload p.2).length + paramPad p.2)) = _
    rw [ih]
    rw [List.map_cons, bytesConcat_cons]
    simp only [Prod.mk.injEq]
    refine ⟨by rw [List.append_assoc], ?_⟩
    rw [List.length_append, encParamBytes_length]
    omega


theorem setSlice_at4 (n y z r : List Nat) (hn : n.length = 4)
    (hy : y.length = 3) (hr : r.length = 3) :
    setSlice (n ++ (y ++ z)) 4 r = n ++ (r ++ z) := by
  unfold setSlice
  rw [hr]
  have h1 : (n ++ (y ++ z)).take 4 = n := by
    rw [← hn, List.take_left]
  have h2 : (n ++ (y ++ z)).drop 7 = z := by
    have h7 : (7 : Nat) = n.length + 3 := by omega
    rw [h7, List.drop_append]
    rw [← hy, List.drop_left]
  rw [h1, h2, List.append_assoc]

theorem encodeFieldStep_eq (buf : List Nat) (f : FieldData) :
    encodeFieldStep (buf, buf.length) f =
      (buf ++ encFieldBytes f, buf.length + fieldByteLen f) := by
  unfold encodeFieldStep
  simp only [paramsFold_eq]
  rw [List.append_assoc, List.append_assoc, List.append_assoc, List.append_assoc]
  rw [setSlice_append_right]
  have hw : buf.length + 12 + (bytesConcat (List.map encParamBytes f.params)).length
      - buf.length = fieldByteLen f := by
    unfold fieldByteLen
    omega
  rw [hw]
  rw [setSlice_at4 _ [0, 0, 0] _ _ (pad4_length _) rfl (leBytes_length 3 _)]
  unfold encFieldBytes fieldWords
  simp only [Prod.mk.injEq]
  constructor
  · simp only [List.append_assoc]
  · unfold fieldByteLen
    omega

theorem fieldsFold_eq (fs : List FieldData) (buf : List Nat) :
    fs.foldl encodeFieldStep (buf, buf.length) =
      (buf ++ bytesConcat (fs.map encFieldBytes),
        buf.length + (bytesConcat (fs.map encFieldBytes)).length) := by
  induction fs generalizing buf with
  | nil => simp [bytesConcat]
  | cons f fs ih =>
    rw [List.foldl_cons, encodeFieldStep_eq]
    have hlen : buf.length + fieldByteLen f = (buf ++ encFieldBytes f).length := by
      rw [List.length_append, encFieldBytes_length]
    rw [hlen, ih]
    rw [List.map_cons, bytesConcat_cons]
    simp only [Prod.mk.injEq]
    constructor
    · rw [List.append_assoc]
    · simp only [List.length_append, encFieldBytes_length]
      omega

theorem setSlice_at8 (m p o z r : List Nat) (hm : m.length = 4)
    (hp : p.length = 4) (ho : o.length = 4) (hr : r.length = 4) :
    setSlice (m ++ (p ++ (o ++ z))) 8 r = m ++ (p ++ (r ++ z)) := by
  unfold setSlice
  rw [hr]
  have h1 : (m ++ (p ++ (o ++ z))).take 8 = m ++ p := by
    have h8 : (8 : Nat) = m.length + 4 := by omega
    rw [h8, List.take_append]
    rw [← hp, List.take_left]
  have h2 : (m ++ (p ++ (o ++ z))).drop 12 = z := by
    have h12 : (12 : Nat) = m.length + (p.length + o.length) := by omega
    rw [h12, List.drop_append]
    have : (p ++ (o ++ z)).drop (p.length + o.length) = (o ++ z).drop o.length := by
      rw [List.drop_append]
    rw [this, List.drop_left]
  rw [h1, h2]
  simp only [List.append_assoc]

theorem encode_packet_eq (ptype : String) (pid : Nat) (ts : Timestamp)
    (info : List Nat) (fields : List FieldData) :
    encode_packet ptype pid ts info fields =
      packetBytes ptype pid ts info fields := by
  have h32 : (32 : Nat) = (packetHeaderBytes ptype 0 pid ts info).length :=
    (packetHeaderBytes_length ptype 0 pid ts info).symm
  show setSlice
      ((fields.foldl encodeFieldStep (packetHeaderBytes ptype 0 pid ts info, 32)).1
        ++ footerBytes) 8
      (leBytes 4
        (((fields.foldl encodeFieldStep
          (packetHeaderBytes ptype 0 pid ts info, 32)).2 + 8) / 4)) =
    packetBytes ptype pid ts info fields
  rw [h32, fieldsFold_eq]
  simp only []
  rw [← h32]
  rw [List.append_assoc]
  rw [setSlice_append_left _ _ _ 8 (by
    rw [leBytes_length, packetHeaderBytes_length]
    omega)]
  unfold packetHeaderBytes
  simp only [List.append_assoc]
  rw [setSlice_at8 _ _ _ _ _ (by rfl) (pad4_length _) (leBytes_length 4 _)
    (leBytes_length 4 _)]
  unfold packetBytes packetHeaderBytes
  simp only [List.append_assoc]

/-! ## Fuel monotonicity of the decoders -/

theorem decodeParamsF_mono (f : Nat) :
    ∀ g buf off plim acc w r, f ≤ g →
    decodeParamsF f buf off plim acc w = some r →
    decodeParamsF g buf off plim acc w = some r := by
  induction f with
  | zero =>
    intro g buf off plim acc w r _ h
    simp [decodeParamsF] at h
  | succ f ih =>
    intro g buf off plim acc w r hle h
    obtain ⟨g, rfl⟩ : ∃ g2, g = g2 + 1 := ⟨g - 1, by omega⟩
    rw [decodeParamsF] at h ⊢
    by_cases hoff : off < plim
    · rw [if_pos hoff] at h ⊢
      by_cases hpat : readSlice buf off 8 = footerPattern
      · rw [if_pos hpat] at h ⊢
        exact ih g buf (off + 8) plim acc (w + 1) r (by omega) h
      · rw [if_neg hpat] at h ⊢
        by_cases hlen : off + 8 ≤ buf.length
        · rw [if_pos hlen] at h ⊢
          cases hdv : decode_value (readLE (readSlice buf (off + 7) 1))
              (readSlice buf (off + 8) (readLE (readSlice buf (off + 4) 3) * 4 - 8)) with
          | error e =>
            rw [hdv] at h
            exact h
          | ok v =>
            rw [hdv] at h
            replace h : (if off + readLE (readSlice buf (off + 4) 3) * 4 > plim then
                some (Except.error (PyExc.typeError "DecodeError: parameter overflow"))
              else decodeParamsF f buf (off + readLE (readSlice buf (off + 4) 3) * 4) plim
                (odInsert acc (decode_identifier (readSlice buf off 4)) v) w) = some r := h
            show (if off + readLE (readSlice buf (off + 4) 3) * 4 > plim then
                some (Except.error (PyExc.typeError "DecodeError: parameter overflow"))
              else decodeParamsF g buf (off + readLE (readSlice buf (off + 4) 3) * 4) plim
                (odInsert acc (decode_identifier (readSlice buf off 4)) v) w) = some r
            by_cases hov : off + readLE (readSlice buf (off + 4) 3) * 4 > plim
            · rw [if_pos hov] at h
              rw [if_pos hov]
              exact h
            · rw [if_neg hov] at h
              rw [if_neg hov]
              exact ih g buf _ plim _ w r (by omega) h
        · rw [if_neg hlen] at h ⊢
          exact h
    · rw [if_neg hoff] at h ⊢
      exact h

theorem decodeFieldsF_mono (f : Nat) :
    ∀ g buf off flim acc w r, f ≤ g →
    decodeFieldsF f buf off flim acc w = some r →
    decodeFieldsF g buf off flim acc w = some r := by
  induction f with
  | zero =>
    intro g buf off flim acc w r _ h
    simp [decodeFieldsF] at h
  | succ f ih =>
    intro g buf off flim acc w r hle h
    obtain ⟨g, rfl⟩ : ∃ g2, g = g2 + 1 := ⟨g - 1, by omega⟩
    rw [decodeFieldsF] at h ⊢
    by_cases hoff : (off : Int) < flim
    · rw [if_pos hoff] at h ⊢
      by_cases hlen : off + 12 ≤ buf.length
      · rw [if_pos hlen] at h ⊢
        cases hdp : decodeParamsF f buf (off + 12)
            (off + readLE (readSlice buf (off + 4) 3) * 4) [] w with
        | none =>
          rw [hdp] at h
          exact absurd h (by simp)
        | some pr =>
          have hdp2 : decodeParamsF g buf (off + 12)
              (off + readLE (readSlice buf (off + 4) 3) * 4) [] w = some pr :=
            decodeParamsF_mono f g buf _ _ [] w pr (by omega) hdp
          rw [hdp] at h
          rw [hdp2]
          match pr with
          | .error e => exact h
          | .ok (params, offset1, w1) =>
            exact ih g buf offset1 flim _ w1 r (by omega) h
      · rw [if_neg hlen] at h ⊢
        exact h
    · rw [if_neg hoff] at h ⊢
      exact h

/-! ## Reading back an encoded param stream -/

theorem readSlice_zero (buf : List Nat) (k : Nat) :
    readSlice buf 0 k = buf.take k := by
  simp [readSlice]

theorem take_len_left (a b : List Nat) (k : Nat) (h : a.length = k) :
    (a ++ b).take k = a := by
  rw [← h, List.take_left]

theorem drop_len_left (a b : List Nat) (k : Nat) (h : a.length = k) :
    (a ++ b).drop k = b := by
  rw [← h, List.drop_left]

theorem odInsert_not_mem (ps : List (String × Value)) (k : String) (v : Value)
    (h : ∀ p ∈ ps, p.1 ≠ k) : odInsert ps k v = ps ++ [(k, v)] := by
  unfold odInsert
  rw [if_neg]
  simp only [List.any_eq_true, decide_eq_true_eq]
  rintro ⟨p, hp, hk⟩
  exact h p hp hk

theorem encode_value_tag_le (v : Value) : (encode_value v).1 ≤ 5 := by
  cases v with
  | int z => by_cases h : z < 0 <;> simp [encode_value, h]
  | str s => simp [encode_value]
  | raw b => simp [encode_value]
  | intArray zs =>
    by_cases h : zs.any (fun z => decide (z < 0)) = true <;>
      simp [encode_value, h]

theorem leBytes3_explicit (n : Nat) :
    leBytes 3 n = [n % 256, n / 256 % 256, n / 256 / 256 % 256] := rfl

theorem encParamHeader_ne_footerPattern (p : String × Value) :
    encParamHeader p ≠ footerPattern := by
  intro heq
  obtain ⟨a, b, c, d, hp4⟩ :=
    length_eq_four (pad4 (latin1Encode p.1)) (pad4_length _)
  unfold encParamHeader at heq
  rw [hp4, leBytes3_explicit] at heq
  unfold footerPattern at heq
  simp only [List.cons_append, List.nil_append, List.cons.injEq] at heq
  have htag := encode_value_tag_le p.2
  omega

theorem encParamBytes_split (p : String × Value) :
    encParamBytes p = encParamHeader p ++ encParamBody p := by
  unfold encParamBytes encParamHeader encParamBody
  simp only [List.append_assoc]

theorem encParamHeader_length (p : String × Value) :
    (encParamHeader p).length = 8 := by
  unfold encParamHeader
  simp [pad4_length, leBytes_length]

theorem encFieldBytes_split (f : FieldData) :
    encFieldBytes f = encFieldHeaderW f (fieldWords f) ++
      bytesConcat (f.params.map encParamBytes) := by
  unfold encFieldBytes encFieldHeaderW
  simp only [List.append_assoc]

theorem encFieldHeaderW_length (f : FieldData) (w : Nat) :
    (encFieldHeaderW f w).length = 12 := by
  unfold encFieldHeaderW
  simp [pad4_length, leBytes_length]

theorem readLE_singleton (t : Nat) : readLE [t] = t := by
  simp [readLE]

theorem readSlice_take (buf : List Nat) (off k1 k2 : Nat) (h : k1 ≤ k2) :
    readSlice buf off k1 = (readSlice buf off k2).take k1 := by
  simp [readSlice, List.take_take, Nat.min_eq_left h]

theorem readSlice_shift (buf : List Nat) (off a k : Nat) :
    readSlice buf (off + a) k = (readSlice buf off (a + k)).drop a := by
  unfold readSlice
  rw [List.drop_take]
  rw [List.drop_drop]
  congr 1
  omega

theorem nodup_no_earlier_key (acc : List (String × Value)) (p : String × Value)
    (ps : List (String × Value))
    (h : ((acc ++ p :: ps).map Prod.fst).Nodup) : ∀ q ∈ acc, q.1 ≠ p.1 := by
  intro q hq heq
  rw [List.map_append, List.map_cons] at h
  have hdisj := List.disjoint_of_nodup_append h
  exact hdisj (List.mem_map_of_mem Prod.fst hq) (by simp [heq])

theorem decodeParams_chain (ps : List (String × Value)) :
    ∀ fuel pre rest plim (acc : List (String × Value)) w,
    (∀ p ∈ ps, isLegalName p.1 = true ∧ isLegalValue p.2 = true ∧
      (encParamBytes p).length < 2 ^ 24) →
    ((acc ++ ps).map Prod.fst).Nodup →
    pre.length + (bytesConcat (ps.map encParamBytes)).length ≤ plim →
    decodeParamsF (fuel + ps.length)
        (pre ++ (bytesConcat (ps.map encParamBytes) ++ rest)) pre.length plim acc w =
      decodeParamsF fuel (pre ++ (bytesConcat (ps.map encParamBytes) ++ rest))
        (pre.length + (bytesConcat (ps.map encParamBytes)).length) plim (acc ++ ps) w := by
  induction ps with
  | nil =>
    intro fuel pre rest plim acc w _ _ _
    simp [bytesConcat]
  | cons p ps ih =>
    intro fuel pre rest plim acc w hleg hnd hle
    obtain ⟨hlegn, hlegv, hlegs⟩ := hleg p (by simp)
    rw [List.map_cons, bytesConcat_cons] at hle ⊢
    rw [List.append_assoc (encParamBytes p) _ rest]
    rw [List.length_append] at hle ⊢
    have hElen : (encParamBytes p).length =
        8 + (paramPayload p.2).length + paramPad p.2 := encParamBytes_length p
    have hwords : paramWords p.2 * 4 = (encParamBytes p).length := by
      rw [paramWords_mul4, hElen]
    have hwlt : paramWords p.2 < 2 ^ 24 := by omega
    -- the buffer, split after the param header
    have hbufsplit : pre ++ (encParamBytes p ++
        (bytesConcat (ps.map encParamBytes) ++ rest)) =
        pre ++ (encParamHeader p ++ (encParamBody p ++
          (bytesConcat (ps.map encParamBytes) ++ rest))) := by
      rw [encParamBytes_split, List.append_assoc]
    have hhlen : (encParamHeader p).length = 8 := encParamHeader_length p
    -- reads at the current offset
    have hq : readSlice (pre ++ (encParamBytes p ++
        (bytesConcat (ps.map encParamBytes) ++ rest))) pre.length 8 =
        encParamHeader p := by
      rw [hbufsplit, readSlice_append_zero, readSlice_zero]
      exact take_len_left _ _ 8 hhlen
    obtain ⟨na, nb, nc, nd, hpadlit⟩ :=
      length_eq_four (pad4 (latin1Encode p.1)) (pad4_length _)
    have hhdrlit : encParamHeader p = [na, nb, nc, nd, paramWords p.2 % 256,
        paramWords p.2 / 256 % 256, paramWords p.2 / 256 / 256 % 256,
        (encode_value p.2).1] := by
      unfold encParamHeader
      rw [hpadlit, leBytes3_explicit]
      rfl
    have hname : readSlice (pre ++ (encParamBytes p ++
        (bytesConcat (ps.map encParamBytes) ++ rest))) pre.length 4 =
        pad4 (latin1Encode p.1) := by
      rw [readSlice_take _ _ 4 8 (by omega), hq, hhdrlit, hpadlit]
      rfl
    have hsz : readSlice (pre ++ (encParamBytes p ++
        (bytesConcat (ps.map encParamBytes) ++ rest))) (pre.length + 4) 3 =
        leBytes 3 (paramWords p.2) := by
      rw [readSlice_shift]
      rw [readSlice_take _ _ (4 + 3) 8 (by omega), hq, hhdrlit,
        leBytes3_explicit]
      rfl
    have htag : readSlice (pre ++ (encParamBytes p ++
        (bytesConcat (ps.map encParamBytes) ++ rest))) (pre.length + 7) 1 =
        [(encode_value p.2).1] := by
      rw [readSlice_shift]
      rw [readSlice_take _ _ (7 + 1) 8 (by omega), hq, hhdrlit]
      rfl
    have hpay : readSlice (pre ++ (encParamBytes p ++
        (bytesConcat (ps.map encParamBytes) ++ rest))) (pre.length + 8)
        (paramWords p.2 * 4 - 8) = encParamBody p := by
      rw [hbufsplit, readSlice_append]
      unfold readSlice
      rw [drop_len_left (encParamHeader p) _ 8 hhlen]
      apply take_len_left
      unfold encParamBody
      simp only [List.length_append, List.length_replicate]
      omega
    -- one decode step
    show decodeParamsF ((fuel + ps.length) + 1)
        (pre ++ (encParamBytes p ++ (bytesConcat (ps.map encParamBytes) ++ rest)))
        pre.length plim acc w = _
    rw [decodeParamsF]
    rw [if_pos (show pre.length < plim by omega)]
    rw [hq]
    rw [if_neg (encParamHeader_ne_footerPattern p)]
    rw [if_pos (show pre.length + 8 ≤ (pre ++ (encParamBytes p ++
      (bytesConcat (ps.map encParamBytes) ++ rest))).length by
        simp only [List.length_append]
        omega)]
    have hw24 : paramWords p.2 < 2 ^ (8 * 3) := by
      have h2 : 2 ^ (8 * 3) = (16777216 : Nat) := by norm_num
      omega
    have hdv : decode_value
        (readLE (readSlice (pre ++ (encParamBytes p ++
          (bytesConcat (ps.map encParamBytes) ++ rest))) (pre.length + 7) 1))
        (readSlice (pre ++ (encParamBytes p ++
          (bytesConcat (ps.map encParamBytes) ++ rest))) (pre.length + 8)
          (readLE (readSlice (pre ++ (encParamBytes p ++
            (bytesConcat (ps.map encParamBytes) ++ rest))) (pre.length + 4) 3) * 4
            - 8)) = .ok p.2 := by
      rw [hsz, htag, readLE_leBytes 3 _ hw24, readLE_singleton, hpay]
      exact decode_encode_value p.2 hlegv
    split
    case h_1 e heq =>
      rw [hdv] at heq
      cases heq
    case h_2 v heq =>
      rw [hdv] at heq
      injection heq with hv
      subst hv
      rw [hsz, readLE_leBytes 3 _ hw24]
      rw [if_neg (show ¬ pre.length + paramWords p.2 * 4 > plim by omega)]
      rw [hname]
      rw [decode_identifier_encode p.1 hlegn]
      rw [odInsert_not_mem acc p.1 p.2 (nodup_no_earlier_key acc p ps hnd)]
      rw [hwords]
      have hihnd : (((acc ++ [p]) ++ ps).map Prod.fst).Nodup := by
        rw [List.append_assoc, List.singleton_append]
        exact hnd
      have hih := ih fuel (pre ++ encParamBytes p) rest plim (acc ++ [p]) w
        (fun q hq2 => hleg q (by simp [hq2])) hihnd
        (by simp only [List.length_append]; omega)
      rw [List.append_assoc pre (encParamBytes p) _] at hih
      rw [List.length_append] at hih
      rw [List.append_assoc acc [p] ps, List.singleton_append] at hih
      rw [hih]
      rw [Nat.add_assoc]

theorem decodeParamsF_exit (fuel : Nat) (buf : List Nat) (off plim : Nat)
    (acc : List (String × Value)) (w : Nat) (h : ¬ off < plim) :
    decodeParamsF (fuel + 1) buf off plim acc w = some (.ok (acc, off, w)) := by
  rw [decodeParamsF, if_neg h]

/-- Parsing a whole legal param region: the region is consumed exactly and
the params are appended, with no warnings emitted. -/
theorem decodeParams_complete (ps : List (String × Value)) (fuel : Nat)
    (pre rest : List Nat) (acc : List (String × Value)) (w : Nat)
    (hleg : ∀ p ∈ ps, isLegalName p.1 = true ∧ isLegalValue p.2 = true ∧
      (encParamBytes p).length < 2 ^ 24)
    (hnd : ((acc ++ ps).map Prod.fst).Nodup)
    (hfuel : fuel ≥ ps.length + 1) :
    decodeParamsF fuel (pre ++ (bytesConcat (ps.map encParamBytes) ++ rest))
      pre.length (pre.length + (bytesConcat (ps.map encParamBytes)).length) acc w =
      some (.ok (acc ++ ps,
        pre.length + (bytesConcat (ps.map encParamBytes)).length, w)) := by
  obtain ⟨g, rfl⟩ : ∃ g, fuel = (g + 1) + ps.length := ⟨fuel - ps.length - 1, by omega⟩
  rw [decodeParams_chain ps (g + 1) pre rest _ acc w hleg hnd (by omega)]
  exact decodeParamsF_exit g _ _ _ _ _ (by omega)

theorem isLegalParams_parts (ps : List (String × Value))
    (h : isLegalParams ps = true) :
    (∀ p ∈ ps, isLegalName p.1 = true ∧ isLegalValue p.2 = true ∧
      (encParamBytes p).length < 2 ^ 24) ∧ (ps.map Prod.fst).Nodup := by
  unfold isLegalParams at h
  simp only [Bool.and_eq_true, List.all_eq_true, decide_eq_true_eq] at h
  refine ⟨fun p hp => ?_, by
    have := h.2
    exact List.nodup_iff_sublist.mpr (by
      intro a hsub
      exact (List.nodup_iff_sublist.mp this) a hsub)⟩
  obtain ⟨⟨h1, h2⟩, h3⟩ := h.1 p hp
  exact ⟨h1, h2, h3⟩

theorem isLegalField_parts (f : FieldData) (h : isLegalField f = true) :
    isLegalName f.name = true ∧ f.id < 2 ^ 32 ∧ isLegalParams f.params = true ∧
      fieldByteLen f < 2 ^ 25 := by
  unfold isLegalField at h
  simp only [Bool.and_eq_true, decide_eq_true_eq] at h
  exact ⟨h.1.1.1, h.1.1.2, h.1.2, h.2⟩

theorem leBytes4_explicit (n : Nat) :
    leBytes 4 n = [n % 256, n / 256 % 256, n / 256 / 256 % 256,
      n / 256 / 256 / 256 % 256] := rfl

/-- Parsing the encoding of a list of legal fields consumes exactly their
bytes, appending the decoded fields (names normalised = unchanged for legal
names) and emitting no warnings. -/
theorem decodeFields_chain (fs : List FieldData) :
    ∀ fuel pre rest (flim : Int) (acc : List FieldData) w,
    (∀ f ∈ fs, isLegalField f = true) →
    (pre.length : Int) + (bytesConcat (fs.map encFieldBytes)).length ≤ flim →
    fuel ≥ decodeFuel fs →
    decodeFieldsF fuel (pre ++ (bytesConcat (fs.map encFieldBytes) ++ rest))
        pre.length flim acc w =
      decodeFieldsF (fuel - fs.length)
        (pre ++ (bytesConcat (fs.map encFieldBytes) ++ rest))
        (pre.length + (bytesConcat (fs.map encFieldBytes)).length) flim
        (acc ++ fs) w := by
  induction fs with
  | nil =>
    intro fuel pre rest flim acc w _ _ _
    simp [bytesConcat]
  | cons f fs ih =>
    intro fuel pre rest flim acc w hleg hle hfuel
    obtain ⟨hlegn, hlegi, hlegp, hlegs⟩ := isLegalField_parts f (hleg f (by simp))
    obtain ⟨hpleg, hpnd⟩ := isLegalParams_parts f.params hlegp
    have hfuelpos : fuel ≥ 1 + max (f.params.length + 2) (decodeFuel fs) := by
      unfold decodeFuel at hfuel ⊢
      simpa using hfuel
    obtain ⟨g, rfl⟩ : ∃ g, fuel = g + 1 := ⟨fuel - 1, by omega⟩
    rw [List.map_cons, bytesConcat_cons] at hle ⊢
    rw [List.append_assoc (encFieldBytes f) _ rest]
    rw [List.length_append] at hle ⊢
    have hFlen : (encFieldBytes f).length = fieldByteLen f := encFieldBytes_length f
    have hwords : fieldWords f * 4 = fieldByteLen f := fieldWords_mul4 f
    have hwlt : fieldWords f < 2 ^ (8 * 3) := by
      have h2 : 2 ^ (8 * 3) = (16777216 : Nat) := by norm_num
      have h3 : 2 ^ 25 = (33554432 : Nat) := by norm_num
      omega
    have hhsplit : encFieldBytes f = encFieldHeaderW f (fieldWords f) ++
        bytesConcat (f.params.map encParamBytes) := encFieldBytes_split f
    have hhlen : (encFieldHeaderW f (fieldWords f)).length = 12 :=
      encFieldHeaderW_length f _
    have hbufsplit : pre ++ (encFieldBytes f ++
        (bytesConcat (fs.map encFieldBytes) ++ rest)) =
        pre ++ (encFieldHeaderW f (fieldWords f) ++
          (bytesConcat (f.params.map encParamBytes) ++
            (bytesConcat (fs.map encFieldBytes) ++ rest))) := by
      rw [hhsplit, List.append_assoc]
    have hq : readSlice (pre ++ (encFieldBytes f ++
        (bytesConcat (fs.map encFieldBytes) ++ rest))) pre.length 12 =
        encFieldHeaderW f (fieldWords f) := by
      rw [hbufsplit, readSlice_append_zero, readSlice_zero]
      exact take_len_left _ _ 12 hhlen
    obtain ⟨na, nb, nc, nd, hpadlit⟩ :=
      length_eq_four (pad4 (latin1Encode f.name)) (pad4_length _)
    have hhdrlit : encFieldHeaderW f (fieldWords f) = [na, nb, nc, nd,
        fieldWords f % 256, fieldWords f / 256 % 256,
        fieldWords f / 256 / 256 % 256, 0, f.id % 256, f.id / 256 % 256,
        f.id / 256 / 256 % 256, f.id / 256 / 256 / 256 % 256] := by
      unfold encFieldHeaderW
      rw [hpadlit, leBytes3_explicit, leBytes4_explicit]
      rfl
    have hname : readSlice (pre ++ (encFieldBytes f ++
        (bytesConcat (fs.map encFieldBytes) ++ rest))) pre.length 4 =
        pad4 (latin1Encode f.name) := by
      rw [readSlice_take _ _ 4 12 (by omega), hq, hhdrlit, hpadlit]
      rfl
    have hsz : readSlice (pre ++ (encFieldBytes f ++
        (bytesConcat (fs.map encFieldBytes) ++ rest))) (pre.length + 4) 3 =
        leBytes 3 (fieldWords f) := by
      rw [readSlice_shift]
      rw [readSlice_take _ _ (4 + 3) 12 (by omega), hq, hhdrlit,
        leBytes3_explicit]
      rfl
    have hid : readSlice (pre ++ (encFieldBytes f ++
        (bytesConcat (fs.map encFieldBytes) ++ rest))) (pre.length + 8) 4 =
        leBytes 4 f.id := by
      rw [readSlice_shift]
      rw [readSlice_take _ _ (8 + 4) 12 (by omega), hq, hhdrlit,
        leBytes4_explicit]
      rfl
    have h12p : fieldByteLen f ≥ 12 := by
      unfold fieldByteLen
      omega
    show decodeFieldsF (g + 1)
        (pre ++ (encFieldBytes f ++ (bytesConcat (fs.map encFieldBytes) ++ rest)))
        pre.length flim acc w = _
    rw [decodeFieldsF]
    rw [if_pos (show (pre.length : Int) < flim by
      push_cast at hle ⊢
      omega)]
    rw [if_pos (show pre.length + 12 ≤ (pre ++ (encFieldBytes f ++
      (bytesConcat (fs.map encFieldBytes) ++ rest))).length by
        simp only [List.length_append]
        omega)]
    have hinner : decodeParamsF g
        (pre ++ (encFieldBytes f ++ (bytesConcat (fs.map encFieldBytes) ++ rest)))
        (pre.length + 12)
        (pre.length + readLE (readSlice (pre ++ (encFieldBytes f ++
          (bytesConcat (fs.map encFieldBytes) ++ rest))) (pre.length + 4) 3) * 4)
        [] w =
        some (.ok (f.params, pre.length + (encFieldBytes f).length, w)) := by
      rw [hsz, readLE_leBytes 3 _ hwlt]
      have hb2 : pre ++ (encFieldBytes f ++
          (bytesConcat (fs.map encFieldBytes) ++ rest)) =
          (pre ++ encFieldHeaderW f (fieldWords f)) ++
          (bytesConcat (f.params.map encParamBytes) ++
            (bytesConcat (fs.map encFieldBytes) ++ rest)) := by
        rw [hbufsplit, List.append_assoc]
      rw [hb2]
      have h12 : pre.length + 12 = (pre ++ encFieldHeaderW f (fieldWords f)).length := by
        rw [List.length_append, hhlen]
      have hplim : pre.length + fieldWords f * 4 =
          (pre ++ encFieldHeaderW f (fieldWords f)).length +
          (bytesConcat (f.params.map encParamBytes)).length := by
        rw [List.length_append, hhlen, hwords]
        unfold fieldByteLen
        omega
      rw [h12, hplim]
      rw [decodeParams_complete f.params g _ _ [] w hpleg (by simpa using hpnd)
        (by omega)]
      have hout : (pre ++ encFieldHeaderW f (fieldWords f)).length +
          (bytesConcat (f.params.map encParamBytes)).length =
          pre.length + (encFieldBytes f).length := by
        rw [List.length_append, hhlen, hFlen]
        unfold fieldByteLen
        omega
      rw [hout]
      simp
    split
    case h_1 heq =>
      rw [hinner] at heq
      cases heq
    case h_2 e heq =>
      rw [hinner] at heq
      cases heq
    case h_3 params offset1 w1 heq =>
      rw [hinner] at heq
      injection heq with heq2
      injection heq2 with heq3
      injection heq3 with hp ho
      injection ho with ho2 hw2
      subst hp
      subst ho2
      subst hw2
      rw [hname, decode_identifier_encode f.name hlegn]
      rw [hid, readLE_leBytes 4 _ (by
        have h2 : 2 ^ (8 * 4) = (4294967296 : Nat) := by norm_num
        omega)]
      have hacc : acc ++ [(⟨f.name, f.id, f.params⟩ : FieldData)] = acc ++ [f] := by
        rfl
      rw [hacc]
      have hih := ih g (pre ++ encFieldBytes f) rest flim (acc ++ [f]) w
        (fun q hq2 => hleg q (by simp [hq2]))
        (by
          rw [List.length_append]
          push_cast at hle ⊢
          omega)
        (by omega)
      rw [List.append_assoc pre (encFieldBytes f) _] at hih
      rw [List.length_append] at hih
      rw [List.append_assoc acc [f] fs, List.singleton_append] at hih
      rw [hih]
      have hfl : g - fs.length = g + 1 - (f :: fs).length := by
        simp
      rw [hfl, Nat.add_assoc]

theorem readSlice_suffix (a b : List Nat) (k : Nat) (hb : b.length = k) :
    readSlice (a ++ b) a.length k = b := by
  rw [readSlice_append_zero, readSlice_zero, ← hb, List.take_length]

theorem decodeFieldsF_exit (fuel : Nat) (buf : List Nat) (off : Nat)
    (flim : Int) (acc : List FieldData) (w : Nat) (h : (off : Int) = flim) :
    decodeFieldsF (fuel + 1) buf off flim acc w = some (.ok (acc, w)) := by
  rw [decodeFieldsF, if_neg (by omega), if_neg (by omega)]

theorem decodeFuel_ge (fs : List FieldData) : decodeFuel fs ≥ fs.length + 1 := by
  induction fs with
  | nil => simp [decodeFuel]
  | cons f fs ih =>
    unfold decodeFuel at ih ⊢
    simp only [List.foldr_cons, List.length_cons]
    have hmax := Nat.le_max_right (f.params.length + 2)
      (List.foldr (fun f acc => 1 + max (f.params.length + 2) acc) 1 fs)
    omega

/-- Decoding the full encoded field region consumes it exactly. -/
theorem decodeFields_complete (fs : List FieldData) (fuel : Nat)
    (pre rest : List Nat) (flim : Int) (acc : List FieldData) (w : Nat)
    (hleg : ∀ f ∈ fs, isLegalField f = true)
    (hflim : flim = (pre.length : Int) + (bytesConcat (fs.map encFieldBytes)).length)
    (hfuel : fuel ≥ decodeFuel fs) :
    decodeFieldsF fuel (pre ++ (bytesConcat (fs.map encFieldBytes) ++ rest))
      pre.length flim acc w = some (.ok (acc ++ fs, w)) := by
  rw [decodeFields_chain fs fuel pre rest flim acc w hleg (by omega) hfuel]
  have hge := decodeFuel_ge fs
  obtain ⟨g, hg⟩ : ∃ g, fuel - fs.length = g + 1 := ⟨fuel - fs.length - 1, by omega⟩
  rw [hg]
  apply decodeFieldsF_exit
  push_cast
  omega

theorem isLegalPacket_parts (ptype : String) (pid : Nat) (ts : Timestamp)
    (info : List Nat) (fields : List FieldData)
    (h : isLegalPacket ptype pid ts info fields = true) :
    isLegalName ptype = true ∧ pid < 2 ^ 32 ∧ ts.sec < 2 ^ 32 ∧
      ts.nano < 2 ^ 32 ∧ info.length = 4 ∧
      (∀ f ∈ fields, isLegalField f = true) ∧
      32 + (bytesConcat (fields.map encFieldBytes)).length + 8 < 2 ^ 33 := by
  unfold isLegalPacket at h
  simp only [Bool.and_eq_true, List.all_eq_true, decide_eq_true_eq,
    beq_iff_eq] at h
  exact ⟨h.1.1.1.1.1.1.1, h.1.1.1.1.1.1.2, h.1.1.1.1.1.2, h.1.1.1.1.2,
    h.1.1.1.2, h.1.2, h.2⟩

theorem readSlice_block (a b rest : List Nat) (k : Nat) (hb : b.length = k) :
    readSlice (a ++ (b ++ rest)) a.length k = b := by
  rw [readSlice_append_zero, readSlice_zero]
  exact take_len_left b rest k hb

/-- The header produced by `encode_packet` decodes to its components. -/
theorem decode_cps_header (ptype : String) (W pid : Nat) (ts : Timestamp)
    (info : List Nat)
    (hname : isLegalName ptype = true)
    (hW : W < 2 ^ 32) (hpid : pid < 2 ^ 32)
    (hsec : ts.sec < 2 ^ 32) (hnano : ts.nano < 2 ^ 32)
    (hinfo : info.length = 4) :
    decode_packet_cps (packetHeaderBytes ptype W pid ts info) =
      .ok ⟨ptype, pid, ts, info, (W * 4 : Int) - 32⟩ := by
  obtain ⟨ta, tb, tc, td, htyp⟩ :=
    length_eq_four (pad4 (latin1Encode ptype)) (pad4_length _)
  obtain ⟨ia, ib, ic, id2, hinfo4⟩ := length_eq_four info hinfo
  have hpadinfo : pad4 info = info := by
    rw [pad4_eq info (by omega), hinfo]
    simp
  have hHlit : packetHeaderBytes ptype W pid ts info =
      [0xdd, 0xcc, 0xbb, 0xaa, ta, tb, tc, td,
        W % 256, W / 256 % 256, W / 256 / 256 % 256, W / 256 / 256 / 256 % 256,
        pid % 256, pid / 256 % 256, pid / 256 / 256 % 256,
        pid / 256 / 256 / 256 % 256, 1, 0, 0, 0,
        ts.sec % 256, ts.sec / 256 % 256, ts.sec / 256 / 256 % 256,
        ts.sec / 256 / 256 / 256 % 256,
        ts.nano % 256, ts.nano / 256 % 256, ts.nano / 256 / 256 % 256,
        ts.nano / 256 / 256 / 256 % 256, ia, ib, ic, id2] := by
    unfold packetHeaderBytes headerMagic
    rw [htyp, hpadinfo, hinfo4, leBytes4_explicit W, leBytes4_explicit pid,
      leBytes4_explicit ts.sec, leBytes4_explicit ts.nano]
    rfl
  unfold decode_packet_cps
  rw [if_pos (by rw [hHlit]; rfl)]
  rw [if_neg (by
    rw [show readSlice (packetHeaderBytes ptype W pid ts info) 0 4 =
      headerMagic by rw [hHlit]; rfl]
    simp)]
  have hr4 : readSlice (packetHeaderBytes ptype W pid ts info) 4 4 =
      pad4 (latin1Encode ptype) := by
    rw [hHlit, htyp]
    rfl
  have hr8 : readSlice (packetHeaderBytes ptype W pid ts info) 8 4 =
      leBytes 4 W := by
    rw [hHlit, leBytes4_explicit]
    rfl
  have hr12 : readSlice (packetHeaderBytes ptype W pid ts info) 12 4 =
      leBytes 4 pid := by
    rw [hHlit, leBytes4_explicit]
    rfl
  have hr20 : readSlice (packetHeaderBytes ptype W pid ts info) 20 4 =
      leBytes 4 ts.sec := by
    rw [hHlit, leBytes4_explicit]
    rfl
  have hr24 : readSlice (packetHeaderBytes ptype W pid ts info) 24 4 =
      leBytes 4 ts.nano := by
    rw [hHlit, leBytes4_explicit]
    rfl
  have hr28 : readSlice (packetHeaderBytes ptype W pid ts info) 28 4 =
      info := by
    rw [hHlit, hinfo4]
    rfl
  have h32 : (2 : Nat) ^ (8 * 4) = 2 ^ 32 := by norm_num
  rw [hr4, hr8, hr12, hr20, hr24, hr28]
  rw [decode_identifier_encode ptype hname]
  rw [readLE_leBytes 4 W (by omega), readLE_leBytes 4 pid (by omega),
    readLE_leBytes 4 ts.sec (by omega), readLE_leBytes 4 ts.nano (by omega)]

/-- Claim C1: for every packet built from legal field/param values
(identifiers of at most 4 latin-1 characters not ending in padding bytes,
params encodable by the value codec), decoding the bytes produced by
`encode_packet` (with enough fuel, the loops being modelled fuel-bounded)
yields exactly the original packet — same type, id, timestamp, info and the
same ordered field list with identical params — and emits no warnings. -/
theorem c1_encode_decode_roundtrip (ptype : String) (pid : Nat) (ts : Timestamp)
    (info : List Nat) (fields : List FieldData) (fuel : Nat)
    (hleg : isLegalPacket ptype pid ts info fields = true)
    (hfuel : fuel ≥ decodeFuel fields) :
    decode_packet fuel (encode_packet ptype pid ts info fields) =
      some (.ok (⟨ptype, pid, ts, info, fields⟩, 0)) := by
  obtain ⟨hname, hpid, hsec, hnano, hinfo, hfieldsleg, hsize⟩ :=
    isLegalPacket_parts ptype pid ts info fields hleg
  rw [encode_packet_eq]
  have hmod := fieldsBytes_mod4 fields
  have hW4 : (32 + (bytesConcat (fields.map encFieldBytes)).length + 8) / 4 * 4 =
      32 + (bytesConcat (fields.map encFieldBytes)).length + 8 := by
    omega
  have hWlt : (32 + (bytesConcat (fields.map encFieldBytes)).length + 8) / 4 <
      2 ^ 32 := by
    omega
  have hassoc : packetBytes ptype pid ts info fields =
      packetHeaderBytes ptype
        ((32 + (bytesConcat (fields.map encFieldBytes)).length + 8) / 4) pid ts
        info ++ (bytesConcat (fields.map encFieldBytes) ++ footerBytes) := by
    unfold packetBytes
    rw [List.append_assoc]
  rw [hassoc]
  unfold decode_packet
  rw [show readSlice (packetHeaderBytes ptype
      ((32 + (bytesConcat (fields.map encFieldBytes)).length + 8) / 4) pid ts
      info ++ (bytesConcat (fields.map encFieldBytes) ++ footerBytes)) 0 32 =
      packetHeaderBytes ptype
        ((32 + (bytesConcat (fields.map encFieldBytes)).length + 8) / 4) pid ts
        info by
    rw [readSlice_zero]
    exact take_len_left _ _ 32 (packetHeaderBytes_length _ _ _ _ _)]
  rw [decode_cps_header ptype _ pid ts info hname hWlt hpid hsec hnano hinfo]
  show decode_packet_body _ fuel _ = _
  rw [drop_len_left _ _ 32 (packetHeaderBytes_length _ _ _ _ _)]
  unfold decode_packet_body
  rw [if_neg (by
    show ¬ ((bytesConcat (fields.map encFieldBytes) ++ footerBytes).length : Int) >
      (((32 + (bytesConcat (fields.map encFieldBytes)).length + 8) / 4 : Nat) : Int)
        * 4 - 32
    have hfoot : footerBytes.length = 8 := rfl
    simp only [List.length_append, hfoot]
    push_cast
    omega)]
  have hflds : decodeFieldsF fuel
      (bytesConcat (fields.map encFieldBytes) ++ footerBytes) 0
      ((((32 + (bytesConcat (fields.map encFieldBytes)).length + 8) / 4 : Nat) : Int)
        * 4 - 32 - 8) [] 0 = some (.ok (fields, 0)) := by
    have hpre : bytesConcat (fields.map encFieldBytes) ++ footerBytes =
        [] ++ (bytesConcat (fields.map encFieldBytes) ++ footerBytes) := by
      simp
    rw [hpre]
    have := decodeFields_complete fields fuel [] footerBytes
      ((((32 + (bytesConcat (fields.map encFieldBytes)).length + 8) / 4 : Nat) : Int)
        * 4 - 32 - 8) [] 0 hfieldsleg (by
          simp only [List.length_nil]
          push_cast
          omega) hfuel
    simpa using this
  rw [hflds]
  show (match checkFooter (bytesConcat (fields.map encFieldBytes) ++ footerBytes)
      ((((32 + (bytesConcat (fields.map encFieldBytes)).length + 8) / 4 : Nat) : Int)
        * 4 - 32 - 8) with
    | Except.error e => some (Except.error e)
    | Except.ok _ => some (Except.ok
        ((⟨ptype, pid, ts, info, fields⟩ : PacketData), 0))) = _
  have hcf : checkFooter (bytesConcat (fields.map encFieldBytes) ++ footerBytes)
      ((((32 + (bytesConcat (fields.map encFieldBytes)).length + 8) / 4 : Nat) : Int)
        * 4 - 32 - 8) = .ok () := by
    have hoff : ((((32 + (bytesConcat (fields.map encFieldBytes)).length + 8) / 4
        : Nat) : Int) * 4 - 32 - 8) =
        ((bytesConcat (fields.map encFieldBytes)).length : Int) := by
      push_cast
      omega
    rw [hoff]
    unfold checkFooter
    have hfo : footerOffset
        (bytesConcat (fields.map encFieldBytes) ++ footerBytes).length
        ((bytesConcat (fields.map encFieldBytes)).length : Int) =
        ((bytesConcat (fields.map encFieldBytes)).length : Int) := by
      unfold footerOffset
      rw [if_neg (by omega)]
    rw [hfo]
    rw [if_neg (by
      simp only [List.length_append]
      rw [show footerBytes.length = 8 from rfl]
      push_cast
      omega)]
    rw [if_neg (by
      rw [show ((bytesConcat (fields.map encFieldBytes)).length : Int).toNat =
        (bytesConcat (fields.map encFieldBytes)).length by omega]
      rw [readSlice_shift]
      rw [readSlice_suffix _ footerBytes (4 + 4) rfl]
      simp [footerBytes])]
  rw [hcf]

theorem readSlice_mid (buf a b rest : List Nat) (off k : Nat)
    (ha : a.length = off) (hb : b.length = k)
    (hbuf : buf = a ++ (b ++ rest)) : readSlice buf off k = b := by
  subst hbuf
  subst ha
  exact readSlice_block a b rest k hb

/-- Claim C1 witness packet. -/
theorem c1_encode_decode_roundtrip_witness :
    isLegalPacket "TEST" 1 ⟨5, 6⟩ [48, 49, 50, 51]
      [⟨"ECHO", 7, [("VALU", .int 42), ("TXT", .str "abc")]⟩] = true ∧
    (10 : Nat) ≥ decodeFuel [⟨"ECHO", 7, [("VALU", .int 42), ("TXT", .str "abc")]⟩] ∧
    decode_packet 10 (encode_packet "TEST" 1 ⟨5, 6⟩ [48, 49, 50, 51]
      [⟨"ECHO", 7, [("VALU", .int 42), ("TXT", .str "abc")]⟩]) =
      some (.ok (⟨"TEST", 1, ⟨5, 6⟩, [48, 49, 50, 51],
        [⟨"ECHO", 7, [("VALU", .int 42), ("TXT", .str "abc")]⟩]⟩, 0)) :=
  ⟨by decide, by decide,
    c1_encode_decode_roundtrip "TEST" 1 ⟨5, 6⟩ [48, 49, 50, 51]
      [⟨"ECHO", 7, [("VALU", .int 42), ("TXT", .str "abc")]⟩] 10
      (by decide) (by decide)⟩

/-- Claim C2: in every encoded packet the backpatched `total_size_words`
times 4 equals the byte length of the returned buffer, the buffer is the
header followed by each field's bytes and the footer, each field's
backpatched `field_size_words` times 4 equals that field's byte count
(header plus params including padding), and each param's
`param_size_words` times 4 equals 8 plus its payload length plus its pad
length. -/
theorem c2_size_words_consistency (ptype : String) (pid : Nat)
    (ts : Timestamp) (info : List Nat) (fields : List FieldData)
    (hleg : isLegalPacket ptype pid ts info fields = true) :
    readLE (readSlice (encode_packet ptype pid ts info fields) 8 4) * 4 =
      (encode_packet ptype pid ts info fields).length ∧
    encode_packet ptype pid ts info fields =
      packetHeaderBytes ptype
        ((32 + (bytesConcat (fields.map encFieldBytes)).length + 8) / 4) pid ts
        info ++ (bytesConcat (fields.map encFieldBytes) ++ footerBytes) ∧
    (∀ f ∈ fields, readLE (readSlice (encFieldBytes f) 4 3) * 4 =
      (encFieldBytes f).length) ∧
    (∀ f ∈ fields, ∀ p ∈ f.params,
      readLE (readSlice (encParamBytes p) 4 3) * 4 =
        8 + (paramPayload p.2).length + paramPad p.2) := by
  obtain ⟨hname, hpid, hsec, hnano, hinfo, hfieldsleg, hsize⟩ :=
    isLegalPacket_parts ptype pid ts info fields hleg
  have hmod := fieldsBytes_mod4 fields
  have hassoc : encode_packet ptype pid ts info fields =
      packetHeaderBytes ptype
        ((32 + (bytesConcat (fields.map encFieldBytes)).length + 8) / 4) pid ts
        info ++ (bytesConcat (fields.map encFieldBytes) ++ footerBytes) := by
    rw [encode_packet_eq]
    unfold packetBytes
    rw [List.append_assoc]
  refine ⟨?_, hassoc, ?_, ?_⟩
  · rw [hassoc]
    rw [readSlice_front _ _ 8 4 (by
      rw [packetHeaderBytes_length]
      omega)]
    have hr8 : readSlice (packetHeaderBytes ptype
        ((32 + (bytesConcat (fields.map encFieldBytes)).length + 8) / 4) pid ts
        info) 8 4 =
        leBytes 4 ((32 + (bytesConcat (fields.map encFieldBytes)).length + 8) / 4) :=
      readSlice_mid _ (headerMagic ++ pad4 (latin1Encode ptype))
        (leBytes 4 ((32 + (bytesConcat (fields.map encFieldBytes)).length + 8) / 4))
        (leBytes 4 pid ++ ([1, 0, 0, 0] ++ (leBytes 4 ts.sec ++
          (leBytes 4 ts.nano ++ pad4 info)))) 8 4
        (by simp [headerMagic, pad4_length]) (leBytes_length 4 _)
        (by unfold packetHeaderBytes; simp [List.append_assoc])
    rw [hr8, readLE_leBytes 4 _ (by
      have h2 : 2 ^ (8 * 4) = (4294967296 : Nat) := by norm_num
      omega)]
    rw [List.length_append, List.length_append, packetHeaderBytes_length]
    rw [show footerBytes.length = 8 from rfl]
    omega
  · intro f hf
    obtain ⟨hn, hi, hp, hs⟩ := isLegalField_parts f (hfieldsleg f hf)
    have hr : readSlice (encFieldBytes f) 4 3 = leBytes 3 (fieldWords f) :=
      readSlice_mid _ (pad4 (latin1Encode f.name)) (leBytes 3 (fieldWords f))
        ([0] ++ (leBytes 4 f.id ++ bytesConcat (f.params.map encParamBytes)))
        4 3 (pad4_length _) (leBytes_length 3 _)
        (by unfold encFieldBytes; simp [List.append_assoc])
    rw [hr, readLE_leBytes 3 _ (by
      have h2 : 2 ^ (8 * 3) = (16777216 : Nat) := by norm_num
      have h3 := fieldWords_mul4 f
      have h4 : 2 ^ 25 = (33554432 : Nat) := by norm_num
      omega)]
    rw [fieldWords_mul4, encFieldBytes_length]
  · intro f hf p hp
    obtain ⟨hn, hi, hps, hs⟩ := isLegalField_parts f (hfieldsleg f hf)
    obtain ⟨hpleg, hpnd⟩ := isLegalParams_parts f.params hps
    obtain ⟨hpn, hpv, hplen⟩ := hpleg p hp
    have hr : readSlice (encParamBytes p) 4 3 = leBytes 3 (paramWords p.2) :=
      readSlice_mid _ (pad4 (latin1Encode p.1)) (leBytes 3 (paramWords p.2))
        ([(encode_value p.2).1] ++ (paramPayload p.2 ++
          List.replicate (paramPad p.2) 0))
        4 3 (pad4_length _) (leBytes_length 3 _)
        (by unfold encParamBytes; simp [List.append_assoc])
    rw [hr, readLE_leBytes 3 _ (by
      have h2 : 2 ^ (8 * 3) = (16777216 : Nat) := by norm_num
      have h3 := paramWords_mul4 p.2
      have h4 := encParamBytes_length p
      omega)]
    exact paramWords_mul4 p.2

/-- Claim C2 witness. -/
theorem c2_size_words_consistency_witness :
    isLegalPacket "TEST" 1 ⟨5, 6⟩ [48, 49, 50, 51]
      [⟨"ECHO", 7, [("VALU", .int 42)]⟩] = true ∧
    (readLE (readSlice (encode_packet "TEST" 1 ⟨5, 6⟩ [48, 49, 50, 51]
      [⟨"ECHO", 7, [("VALU", .int 42)]⟩]) 8 4) * 4 =
      (encode_packet "TEST" 1 ⟨5, 6⟩ [48, 49, 50, 51]
        [⟨"ECHO", 7, [("VALU", .int 42)]⟩]).length ∧
    encode_packet "TEST" 1 ⟨5, 6⟩ [48, 49, 50, 51]
        [⟨"ECHO", 7, [("VALU", .int 42)]⟩] =
      packetHeaderBytes "TEST"
        ((32 + (bytesConcat ([⟨"ECHO", 7, [("VALU", .int 42)]⟩].map
          encFieldBytes)).length + 8) / 4) 1 ⟨5, 6⟩ [48, 49, 50, 51] ++
        (bytesConcat ([⟨"ECHO", 7, [("VALU", .int 42)]⟩].map encFieldBytes) ++
          footerBytes) ∧
    (∀ f ∈ [(⟨"ECHO", 7, [("VALU", .int 42)]⟩ : FieldData)],
      readLE (readSlice (encFieldBytes f) 4 3) * 4 = (encFieldBytes f).length) ∧
    (∀ f ∈ [(⟨"ECHO", 7, [("VALU", .int 42)]⟩ : FieldData)], ∀ p ∈ f.params,
      readLE (readSlice (encParamBytes p) 4 3) * 4 =
        8 + (paramPayload p.2).length + paramPad p.2)) :=
  ⟨by decide,
    c2_size_words_consistency "TEST" 1 ⟨5, 6⟩ [48, 49, 50, 51]
      [⟨"ECHO", 7, [("VALU", .int 42)]⟩] (by decide)⟩

/-! ## Client-side claims -/

theorem scanFields_unmatched (cfg : ClientCfg) (t fn : String)
    (fid : Option Nat) (fpre l : List FieldData) (ws : List CommandWarningData)
    (h : ∀ g ∈ fpre, fieldMatches fn fid g = false) :
    scanFields cfg t fn fid (fpre ++ l) ws = scanFields cfg t fn fid l ws := by
  induction fpre generalizing ws with
  | nil => rfl
  | cons g gs ih =>
    rw [List.cons_append, scanFields]
    rw [if_neg (by simp [h g (by simp)])]
    exact ih ws (fun q hq => h q (by simp [hq]))

/-- Claim C5 (amended): when the first matching field of a delivered packet
carries `ERRO` and/or `ERRC` params, `recv_field` raises a `CommandError`
carrying the packet type, field name, field id, the `ERRO` value as message
and the `ERRC` value as code when `auto_erro` is enabled; when `auto_erro`
is disabled it returns the field's params unchanged, provided the field is
not filtered by the warn/ackn auto-handlers (its name is not `WARN` under
`auto_warn` and it has no `ACKN` param under `auto_ackn`). -/
theorem c5_auto_erro_amended (cfg : ClientCfg) (t fn : String)
    (fpre rest : List FieldData) (f : FieldData)
    (hmatch : fieldMatches fn none f = true)
    (hpre : ∀ g ∈ fpre, fieldMatches fn none g = false)
    (herr : (getParam f.params "ERRO").isSome ∨
      (getParam f.params "ERRC").isSome) :
    (cfg.auto_erro = true →
      recvStep cfg t fn none ⟨t, fpre ++ f :: rest⟩ =
        .raised [] ⟨t, f.name, f.id, getParam f.params "ERRO",
          getParam f.params "ERRC"⟩) ∧
    (cfg.auto_erro = false →
      (cfg.auto_warn = true → f.name ≠ "WARN") →
      (cfg.auto_ackn = true → getParam f.params "ACKN" = none) →
      recvStep cfg t fn none ⟨t, fpre ++ f :: rest⟩ =
        .returned (warnEmission cfg t f) f.params) := by
  constructor
  · intro he
    unfold recvStep
    rw [if_pos rfl]
    rw [scanFields_unmatched cfg t fn none fpre (f :: rest) [] hpre]
    rw [scanFields]
    rw [if_pos hmatch]
    rw [if_pos (by exact ⟨by simp [he], herr⟩)]
  · intro he hw ha
    unfold recvStep
    rw [if_pos rfl]
    rw [scanFields_unmatched cfg t fn none fpre (f :: rest) [] hpre]
    rw [scanFields]
    rw [if_pos hmatch]
    rw [if_neg (by
      rintro ⟨he2, _⟩
      rw [he] at he2
      cases he2)]
    rw [if_neg (by
      rintro ⟨hw2, hn2⟩
      exact hw hw2 hn2)]
    rw [if_neg (by
      rintro ⟨ha2, hs2⟩
      rw [ha ha2] at hs2
      cases hs2)]
    rw [List.nil_append]

/-- Claim C5 counterexample: with `auto_erro` disabled and `auto_ackn`
enabled (its default), a matching field whose params contain `ERRO` and
also `ACKN` is *skipped*, not returned — the caller keeps waiting. -/
theorem c5_counterexample :
    recvStep ⟨false, true, true⟩ "X" "CMD1" none
      ⟨"X", [⟨"CMD1", 5, [("ERRO", .str "bad"), ("ACKN", .int 1)]⟩]⟩ =
      .waiting [] ∧
    isReturned (recvStep ⟨false, true, true⟩ "X" "CMD1" none
      ⟨"X", [⟨"CMD1", 5, [("ERRO", .str "bad"), ("ACKN", .int 1)]⟩]⟩) =
      false := by
  constructor
  · rfl
  · rfl

/-- Claim C9 (amended): under `auto_warn`, when the first matching field's
params contain `WARN` or `WARC` — and the field is not intercepted first by
the erro handler — a `CommandWarning` carrying the packet type, field name,
field id, `WARN` message and `WARC` code is emitted; the field is then
skipped (the scan continues with the remaining fields) if and only if its
own name equals `WARN`; any other such field is still returned to the
caller after the warning, provided the ackn handler does not skip it. -/
theorem c9_auto_warn_amended (cfg : ClientCfg) (t fn : String)
    (fpre rest : List FieldData) (f : FieldData)
    (hwarn : cfg.auto_warn = true)
    (hmatch : fieldMatches fn none f = true)
    (hpre : ∀ g ∈ fpre, fieldMatches fn none g = false)
    (hw : (getParam f.params "WARN").isSome ∨
      (getParam f.params "WARC").isSome)
    (herr : cfg.auto_erro = true →
      getParam f.params "ERRO" = none ∧ getParam f.params "ERRC" = none) :
    warnEmission cfg t f = [⟨t, f.name, f.id, getParam f.params "WARN",
      getParam f.params "WARC"⟩] ∧
    (f.name = "WARN" →
      recvStep cfg t fn none ⟨t, fpre ++ f :: rest⟩ =
        scanFields cfg t fn none rest
          [⟨t, f.name, f.id, getParam f.params "WARN",
            getParam f.params "WARC"⟩]) ∧
    (f.name ≠ "WARN" →
      (cfg.auto_ackn = true → getParam f.params "ACKN" = none) →
      recvStep cfg t fn none ⟨t, fpre ++ f :: rest⟩ =
        .returned [⟨t, f.name, f.id, getParam f.params "WARN",
          getParam f.params "WARC"⟩] f.params) := by
  have hwe : warnEmission cfg t f = [⟨t, f.name, f.id,
      getParam f.params "WARN", getParam f.params "WARC"⟩] := by
    unfold warnEmission
    rw [if_pos ⟨by simp [hwarn], hw⟩]
  refine ⟨hwe, ?_, ?_⟩
  · intro hnm
    unfold recvStep
    rw [if_pos rfl]
    rw [scanFields_unmatched cfg t fn none fpre (f :: rest) [] hpre]
    rw [scanFields]
    rw [if_pos hmatch]
    rw [if_neg (by
      rintro ⟨he2, habs⟩
      obtain ⟨h1, h2⟩ := herr (by simpa using he2)
      rw [h1, h2] at habs
      simp at habs)]
    rw [if_pos ⟨by simp [hwarn], hnm⟩]
    rw [hwe, List.nil_append]
  · intro hnm ha
    unfold recvStep
    rw [if_pos rfl]
    rw [scanFields_unmatched cfg t fn none fpre (f :: rest) [] hpre]
    rw [scanFields]
    rw [if_pos hmatch]
    rw [if_neg (by
      rintro ⟨he2, habs⟩
      obtain ⟨h1, h2⟩ := herr (by simpa using he2)
      rw [h1, h2] at habs
      simp at habs)]
    rw [if_neg (by
      rintro ⟨_, hn2⟩
      exact hnm hn2)]
    rw [if_neg (by
      rintro ⟨ha2, hs2⟩
      rw [ha (by simpa using ha2)] at hs2
      cases hs2)]
    rw [hwe, List.nil_append]

/-- Claim C9 counterexample: a matching field named `CMD1` carrying both a
`WARN` param and an `ERRO` param is intercepted by the erro handler first:
a `CommandError` is raised and *no* `CommandWarning` is emitted, so the
claim that a warning is emitted and the field is still returned fails. -/
theorem c9_counterexample :
    recvStep ⟨true, true, true⟩ "X" "CMD1" none
      ⟨"X", [⟨"CMD1", 5, [("WARN", .str "w"), ("ERRO", .str "e")]⟩]⟩ =
      .raised [] ⟨"X", "CMD1", 5, some (.str "e"), none⟩ := by
  rfl

theorem deliverPacket_replicate (cfg : ClientCfg) (t fn : String) (n : Nat)
    (pkt : CPacket) :
    deliverPacket cfg (List.replicate n (t, fn)) pkt =
      List.replicate n (recvStep cfg t fn none pkt) := by
  unfold deliverPacket
  rw [List.map_replicate]

/-- Claim C7 (amended): the reader hands the same packet to every pending
waiter; each caller scans it independently, so when the scan returns params
(at least one matching field survives the auto-handlers), *all* N callers
return — each receiving the same params, those of the first surviving
matching field — and when the scan matches nothing, all N keep waiting. -/
theorem c7_fanout_amended (cfg : ClientCfg) (t fn : String) (n : Nat)
    (pkt : CPacket) :
    (∀ ws ps, recvStep cfg t fn none pkt = .returned ws ps →
      countReturned (deliverPacket cfg (List.replicate n (t, fn)) pkt) = n ∧
      ∀ o ∈ deliverPacket cfg (List.replicate n (t, fn)) pkt,
        o = .returned ws ps) ∧
    (∀ ws, recvStep cfg t fn none pkt = .waiting ws →
      countReturned (deliverPacket cfg (List.replicate n (t, fn)) pkt) = 0) := by
  constructor
  · intro ws ps h
    rw [deliverPacket_replicate, h]
    constructor
    · unfold countReturned
      rw [List.filter_replicate]
      simp [isReturned]
    · intro o ho
      exact List.eq_of_mem_replicate ho
  · intro ws h
    rw [deliverPacket_replicate, h]
    unfold countReturned
    rw [List.filter_replicate]
    simp [isReturned]

/-- Claim C7 counterexample: two concurrent `recv_field("X","CMD1")`
callers and one packet carrying exactly one matching field: the claim
promises `min(2,1) = 1` caller returns, but both do. -/
theorem c7_counterexample :
    countReturned (deliverPacket ⟨true, true, true⟩
      [("X", "CMD1"), ("X", "CMD1")]
      ⟨"X", [⟨"CMD1", 5, [("RSLT", .str "ok")]⟩]⟩) = 2 ∧
    min 2 1 = 1 ∧ (2 : Nat) ≠ 1 := by
  refine ⟨rfl, rfl, by omega⟩

/-- Claim C6 (amended): when the reader task's packet read raises a
non-cancellation error, the reader resolves every currently pending waiter
with that exception and then *continues its loop* — it does not exit, and
keeps reading packets from the socket; it exits only on cancellation. -/
theorem c6_reader_error_amended (e : Nat) (evs : List ReadEvent)
    (ws : List WaiterSlot) :
    runReader (.rerr e :: evs) ws =
      ((runReader evs (resolveWaiters ws (.error e))).1,
        (runReader evs (resolveWaiters ws (.error e))).2 + 1) ∧
    (∀ i : Nat, ws.get? i = some none →
      (resolveWaiters ws (.error e)).get? i = some (some (.error e))) ∧
    runReader [ReadEvent.cancelled] ws = (ws, 1) := by
  refine ⟨rfl, ?_, rfl⟩
  intro i hi
  unfold resolveWaiters
  rw [List.get?_map, hi]
  rfl

/-- Claim C6 counterexample: with one pending waiter and a read script of
one error followed by one packet, the reader performs *two* reads — it
keeps reading after the error instead of exiting after the first. -/
theorem c6_counterexample :
    (runReader [.rerr 7, .pkt ⟨"X", []⟩] [none]).2 = 2 ∧
    (runReader [ReadEvent.rerr 7] [none]).1 = [some (.error 7)] ∧
    (2 : Nat) ≠ 1 := by
  refine ⟨rfl, rfl, by omega⟩

/-- Claim C4: on a 32-byte header whose first four bytes are not
`DD CC BB AA`, `decode_packet_cps` raises — but not a `DecodeError`: the
`DecodeError` constructor inherited from `CommandMixin` (errors.py:9-17)
requires five arguments and packets.py:138 passes one, so the observable
exception is a `TypeError`.  On a good-magic header no such error is
raised and `size_remaining` equals `total_size_words * 4 - 32`. -/
theorem c4_bad_magic_raises_type_error :
    decode_packet_cps (List.replicate 32 0) =
      .error (.typeError "DecodeError: invalid packet header") ∧
    decode_packet_cps ([0xdd, 0xcc, 0xbb, 0xaa] ++ [84, 69, 83, 84] ++
      [16, 0, 0, 0] ++ List.replicate 20 0) =
      .ok ⟨"TEST", 0, ⟨0, 0⟩, [0, 0, 0, 0], 16 * 4 - 32⟩ := by
  constructor
  · rfl
  · rfl

/-! ## C8: id generation -/

theorem range1_cons (s n : Nat) :
    List.range' s (n + 1) = s :: List.range' (s + 1) n := rfl

theorem range1_append (m : Nat) : ∀ s n : Nat,
    List.range' s m ++ List.range' (s + m) n = List.range' s (m + n) := by
  induction m with
  | zero => intro s n; simp [List.range']
  | succ m ih =>
    intro s n
    rw [range1_cons, List.cons_append]
    rw [show s + (m + 1) = (s + 1) + m by omega]
    rw [ih (s + 1) n]
    rw [show m + 1 + n = (m + n) + 1 by omega, range1_cons]

theorem range1_chain (n : Nat) : ∀ s : Nat,
    (List.range' s n).Chain' (· < ·) := by
  induction n with
  | zero => intro s; exact List.chain'_nil
  | succ n ih =>
    intro s
    cases n with
    | zero => simp [List.range']
    | succ m =>
      rw [range1_cons, range1_cons, List.chain'_cons]
      refine ⟨by omega, ?_⟩
      rw [← range1_cons]
      exact ih (s + 1)

theorem sendOne_fold (names : List String) : ∀ (c : Nat) (acc : List Nat),
    names.foldl (fun (a : Nat × List Nat) _ =>
      ((gen_id a.1).1, a.2 ++ [(gen_id a.1).2])) (c, acc) =
      (c + names.length, acc ++ List.range' (c + 1) names.length) := by
  induction names with
  | nil => intro c acc; simp [List.range']
  | cons x ns ih =>
    intro c acc
    rw [List.foldl_cons]
    rw [show ((gen_id (c, acc).1).1, (c, acc).2 ++ [(gen_id (c, acc).1).2]) =
      ((c + 1 : Nat), acc ++ [c + 1]) from rfl]
    rw [ih (c + 1) (acc ++ [c + 1])]
    rw [List.append_assoc]
    rw [show [c + 1] ++ List.range' (c + 1 + 1) ns.length =
      List.range' (c + 1) (ns.length + 1) from rfl]
    rw [show c + 1 + ns.length = c + (ns.length + 1) by omega]
    rw [List.length_cons]

theorem sendOne_eq (c : Nat) (names : List String) :
    sendOne c names =
      (c + names.length + 1, List.range' (c + 1) names.length,
        c + names.length + 1) := by
  unfold sendOne
  rw [sendOne_fold names c []]
  rw [List.nil_append]
  rfl

def totalDraws (sends : List (List String)) : Nat :=
  (sends.map (fun ns => ns.length + 1)).sum

theorem sendSeq_cons (c : Nat) (ns : List String) (rest : List (List String)) :
    sendSeq c (ns :: rest) =
      (List.range' (c + 1) ns.length, c + ns.length + 1) ::
        sendSeq (c + ns.length + 1) rest := by
  show (let s := sendOne c ns; ((s.2.1, s.2.2) :: sendSeq s.1 rest)) = _
  rw [sendOne_eq]

theorem idTrace_cons (s : List Nat × Nat) (rest : List (List Nat × Nat)) :
    idTrace (s :: rest) = s.1 ++ s.2 :: idTrace rest := rfl

theorem idTrace_sendSeq (sends : List (List String)) : ∀ c : Nat,
    idTrace (sendSeq c sends) = List.range' (c + 1) (totalDraws sends) := by
  induction sends with
  | nil => intro c; rfl
  | cons ns rest ih =>
    intro c
    rw [sendSeq_cons, idTrace_cons]
    rw [ih (c + ns.length + 1)]
    show List.range' (c + 1) ns.length ++ (c + ns.length + 1) ::
      List.range' (c + ns.length + 1 + 1) (totalDraws rest) =
      List.range' (c + 1) (totalDraws (ns :: rest))
    rw [show c + ns.length + 1 + 1 = (c + 1 + ns.length) + 1 by omega]
    rw [show c + ns.length + 1 = c + 1 + ns.length by omega]
    rw [← range1_cons (c + 1 + ns.length) (totalDraws rest)]
    rw [range1_append ns.length (c + 1) (totalDraws rest + 1)]
    congr 1
    unfold totalDraws
    rw [List.map_cons, List.sum_cons]
    omega

theorem sendSeq_field_ids_lt (sends : List (List String)) : ∀ c : Nat,
    ∀ s ∈ sendSeq c sends, ∀ i ∈ s.1, i < s.2 := by
  induction sends with
  | nil => intro c s hs; cases hs
  | cons ns rest ih =>
    intro c s hs
    rw [sendSeq_cons] at hs
    rcases List.mem_cons.mp hs with h | h
    · subst h
      intro i hi
      have := List.mem_range'_1.mp hi
      omega
    · exact ih (c + ns.length + 1) s h

/-- Claim C8: ids on a connection are handed out by a single monotonically
increasing counter (client.py:81-83): across any sequence of `send` calls
the full stream of assigned ids — each field's id followed by its packet's
id — is strictly increasing, and within each packet every field id is
strictly below the packet id (the packet id is drawn last). -/
theorem c8_monotonic_ids (c : Nat) (sends : List (List String)) :
    (idTrace (sendSeq c sends)).Chain' (· < ·) ∧
    ∀ s ∈ sendSeq c sends, ∀ i ∈ s.1, i < s.2 := by
  constructor
  · rw [idTrace_sendSeq sends c]
    exact range1_chain (totalDraws sends) (c + 1)
  · exact sendSeq_field_ids_lt sends c

/-- Witness for C8 at a concrete connection history. -/
theorem c8_monotonic_ids_witness :
    idTrace (sendSeq 0 [["A", "B"], ["C"]]) = [1, 2, 3, 4, 5] ∧
    (idTrace (sendSeq 0 [["A", "B"], ["C"]])).Chain' (· < ·) ∧
    ∀ s ∈ sendSeq 0 [["A", "B"], ["C"]], ∀ i ∈ s.1, i < s.2 := by
  refine ⟨rfl, (c8_monotonic_ids 0 [["A", "B"], ["C"]]).1,
    (c8_monotonic_ids 0 [["A", "B"], ["C"]]).2⟩

/-- Witness for the amended C5 at concrete inputs, both directions. -/
theorem c5_auto_erro_amended_witness :
    recvStep ⟨true, true, true⟩ "X" "CMD1" none
      ⟨"X", [⟨"CMD1", 5, [("ERRO", .str "bad")]⟩]⟩ =
      .raised [] ⟨"X", "CMD1", 5, some (.str "bad"), none⟩ ∧
    recvStep ⟨false, false, false⟩ "X" "CMD1" none
      ⟨"X", [⟨"CMD1", 5, [("ERRO", .str "bad")]⟩]⟩ =
      .returned [] [("ERRO", .str "bad")] := by
  constructor
  · exact (c5_auto_erro_amended ⟨true, true, true⟩ "X" "CMD1" [] []
      ⟨"CMD1", 5, [("ERRO", .str "bad")]⟩ (by decide) (by simp)
      (by decide)).1 rfl
  · have h := (c5_auto_erro_amended ⟨false, false, false⟩ "X" "CMD1" [] []
      ⟨"CMD1", 5, [("ERRO", .str "bad")]⟩ (by decide) (by simp)
      (by decide)).2 rfl (by intro hh; cases hh) (by intro hh; cases hh)
    exact h

/-- Witness for the amended C9 at concrete inputs. -/
theorem c9_auto_warn_amended_witness :
    recvStep ⟨true, true, true⟩ "X" "CMD1" none
      ⟨"X", [⟨"CMD1", 5, [("WARN", .str "w"), ("RSLT", .int 1)]⟩]⟩ =
      .returned [⟨"X", "CMD1", 5, some (.str "w"), none⟩]
        [("WARN", .str "w"), ("RSLT", .int 1)] ∧
    recvStep ⟨true, true, true⟩ "X" "WARN" none
      ⟨"X", [⟨"WARN", 5, [("WARN", .str "w")]⟩]⟩ =
      .waiting [⟨"X", "WARN", 5, some (.str "w"), none⟩] := by
  constructor
  · exact (c9_auto_warn_amended ⟨true, true, true⟩ "X" "CMD1" [] []
      ⟨"CMD1", 5, [("WARN", .str "w"), ("RSLT", .int 1)]⟩ rfl (by decide)
      (by simp) (by decide) (by intro hh; exact ⟨rfl, rfl⟩)).2.2
      (by decide) (by intro hh; rfl)
  · have h := (c9_auto_warn_amended ⟨true, true, true⟩ "X" "WARN" [] []
      ⟨"WARN", 5, [("WARN", .str "w")]⟩ rfl (by decide) (by simp)
      (by decide) (by intro hh; exact ⟨rfl, rfl⟩)).2.1 rfl
    exact h

/-- Witness for the amended C7 at concrete inputs, both directions. -/
theorem c7_fanout_amended_witness :
    countReturned (deliverPacket ⟨true, true, true⟩
      (List.replicate 3 ("X", "CMD1"))
      ⟨"X", [⟨"CMD1", 5, [("RSLT", .str "ok")]⟩]⟩) = 3 ∧
    countReturned (deliverPacket ⟨true, true, true⟩
      (List.replicate 3 ("X", "CMD1"))
      ⟨"X", [⟨"OTHER", 5, [("RSLT", .str "ok")]⟩]⟩) = 0 := by
  constructor
  · exact ((c7_fanout_amended ⟨true, true, true⟩ "X" "CMD1" 3
      ⟨"X", [⟨"CMD1", 5, [("RSLT", .str "ok")]⟩]⟩).1 []
      [("RSLT", .str "ok")] rfl).1
  · exact (c7_fanout_amended ⟨true, true, true⟩ "X" "CMD1" 3
      ⟨"X", [⟨"OTHER", 5, [("RSLT", .str "ok")]⟩]⟩).2 [] rfl

/-- Witness for the amended C6 at concrete inputs. -/
theorem c6_reader_error_amended_witness :
    runReader [ReadEvent.rerr 3] [none, some (.ok ⟨"X", []⟩)] =
      ([some (.error 3), some (.ok ⟨"X", []⟩)], 1) ∧
    (resolveWaiters [none] (Except.error 3)).get? 0 =
      some (some (.error 3)) ∧
    runReader [ReadEvent.cancelled] [none] = ([none], 1) := by
  refine ⟨?_, ?_, ?_⟩
  · exact ((c6_reader_error_amended 3 [] [none, some (.ok ⟨"X", []⟩)]).1).trans rfl
  · exact (c6_reader_error_amended 3 [] [none]).2.1 0 rfl
  · exact (c6_reader_error_amended 3 [] [none]).2.2

/-! ## C3: tolerance of an embedded garbled footer -/

theorem bytesConcat_take_drop (ps : List (String × Value)) (j : Nat) :
    bytesConcat ((ps.take j).map encParamBytes) ++
      bytesConcat ((ps.drop j).map encParamBytes) =
      bytesConcat (ps.map encParamBytes) := by
  rw [← bytesConcat_append, ← List.map_append, List.take_append_drop]

theorem footerPattern_length : (footerPattern : List Nat).length = 8 := rfl

theorem encFieldBytesCorrupt_split (f : FieldData) (j : Nat) :
    encFieldBytesCorrupt f j = encFieldHeaderW f (fieldWords f + 2) ++
      (bytesConcat ((f.params.take j).map encParamBytes) ++
        (footerPattern ++ bytesConcat ((f.params.drop j).map encParamBytes))) := by
  unfold encFieldBytesCorrupt encFieldHeaderW
  simp [List.append_assoc]

theorem encFieldBytesCorrupt_length (f : FieldData) (j : Nat) :
    (encFieldBytesCorrupt f j).length = fieldByteLen f + 8 := by
  have hpp := congrArg List.length (bytesConcat_take_drop f.params j)
  rw [List.length_append] at hpp
  rw [encFieldBytesCorrupt_split]
  simp only [List.length_append, encFieldHeaderW_length, footerPattern_length]
  unfold fieldByteLen
  omega

/-- Decoding a param region with the 8-byte garbled footer pattern embedded
after the first `j` params: the whole region is consumed, all params are
recovered, and exactly one `DecodeWarning` is emitted. -/
theorem decodeParams_corrupt (ps : List (String × Value)) (j : Nat)
    (g : Nat) (pre rest : List Nat) (w : Nat)
    (hleg : ∀ p ∈ ps, isLegalName p.1 = true ∧ isLegalValue p.2 = true ∧
      (encParamBytes p).length < 2 ^ 24)
    (hnd : (ps.map Prod.fst).Nodup)
    (hfuel : g ≥ ps.length + 2) :
    decodeParamsF g
      (pre ++ (bytesConcat ((ps.take j).map encParamBytes) ++
        (footerPattern ++ (bytesConcat ((ps.drop j).map encParamBytes) ++ rest))))
      pre.length
      (pre.length + (bytesConcat ((ps.take j).map encParamBytes)).length + 8 +
        (bytesConcat ((ps.drop j).map encParamBytes)).length) [] w =
    some (.ok (ps,
      pre.length + (bytesConcat ((ps.take j).map encParamBytes)).length + 8 +
        (bytesConcat ((ps.drop j).map encParamBytes)).length, w + 1)) := by
  have hsplitlen : (ps.take j).length + (ps.drop j).length = ps.length := by
    rw [← List.length_append, List.take_append_drop]
  have htklen : (ps.take j).length ≤ ps.length := by omega
  obtain ⟨g1, rfl⟩ : ∃ g1, g = g1 + (ps.take j).length :=
    ⟨g - (ps.take j).length, by omega⟩
  rw [decodeParams_chain (ps.take j) g1 pre
    (footerPattern ++ (bytesConcat ((ps.drop j).map encParamBytes) ++ rest)) _
    [] w
    (fun p hp => hleg p (List.mem_of_mem_take hp))
    (by
      simp only [List.nil_append]
      rw [List.map_take]
      exact hnd.sublist (List.take_sublist j _))
    (by omega)]
  simp only [List.nil_append]
  obtain ⟨g2, rfl⟩ : ∃ g2, g1 = g2 + 1 := ⟨g1 - 1, by omega⟩
  rw [decodeParamsF]
  rw [if_pos (show pre.length +
    (bytesConcat ((ps.take j).map encParamBytes)).length <
    pre.length + (bytesConcat ((ps.take j).map encParamBytes)).length + 8 +
    (bytesConcat ((ps.drop j).map encParamBytes)).length by omega)]
  rw [readSlice_mid _ (pre ++ bytesConcat ((ps.take j).map encParamBytes))
    footerPattern (bytesConcat ((ps.drop j).map encParamBytes) ++ rest)
    (pre.length + (bytesConcat ((ps.take j).map encParamBytes)).length) 8
    (by rw [List.length_append]) footerPattern_length
    (by simp [List.append_assoc])]
  rw [if_pos rfl]
  obtain ⟨g3, rfl⟩ : ∃ g3, g2 = g3 + (ps.drop j).length :=
    ⟨g2 - (ps.drop j).length, by omega⟩
  have hih := decodeParams_chain (ps.drop j) g3
    ((pre ++ bytesConcat ((ps.take j).map encParamBytes)) ++ footerPattern)
    rest
    (pre.length + (bytesConcat ((ps.take j).map encParamBytes)).length + 8 +
      (bytesConcat ((ps.drop j).map encParamBytes)).length)
    (ps.take j) (w + 1)
    (fun p hp => hleg p (List.mem_of_mem_drop hp))
    (by rw [List.take_append_drop]; exact hnd)
    (by
      simp only [List.length_append, footerPattern_length]
      omega)
  simp only [List.append_assoc] at hih
  simp only [List.length_append, footerPattern_length] at hih
  rw [List.take_append_drop] at hih
  rw [show pre.length + (bytesConcat ((ps.take j).map encParamBytes)).length +
    8 = pre.length + ((bytesConcat ((ps.take j).map encParamBytes)).length + 8)
    by omega] at hih ⊢
  rw [hih]
  obtain ⟨g4, rfl⟩ : ∃ g4, g3 = g4 + 1 := ⟨g3 - 1, by omega⟩
  rw [decodeParamsF_exit g4 _ _ _ _ _ (by omega)]

/-- One step of the field loop over a field carrying the embedded garbled
footer pattern: the field decodes fully (name, id and all params recovered)
with one `DecodeWarning`, consuming its enlarged byte span. -/
theorem decodeFields_corrupt_step (f : FieldData) (j : Nat) (g : Nat)
    (pre rest : List Nat) (flim : Int) (acc : List FieldData) (w : Nat)
    (hleg : isLegalField f = true)
    (hle : (pre.length : Int) + ((encFieldBytesCorrupt f j).length : Int) ≤ flim)
    (hfuel : g ≥ f.params.length + 2) :
    decodeFieldsF (g + 1) (pre ++ (encFieldBytesCorrupt f j ++ rest))
        pre.length flim acc w =
      decodeFieldsF g (pre ++ (encFieldBytesCorrupt f j ++ rest))
        (pre.length + (encFieldBytesCorrupt f j).length) flim
        (acc ++ [f]) (w + 1) := by
  obtain ⟨hlegn, hlegi, hlegp, hlegs⟩ := isLegalField_parts f hleg
  obtain ⟨hpleg, hpnd⟩ := isLegalParams_parts f.params hlegp
  have hClen : (encFieldBytesCorrupt f j).length = fieldByteLen f + 8 :=
    encFieldBytesCorrupt_length f j
  have hwords : fieldWords f * 4 = fieldByteLen f := fieldWords_mul4 f
  have h12p : fieldByteLen f ≥ 12 := by
    unfold fieldByteLen
    omega
  have hwlt : fieldWords f + 2 < 2 ^ (8 * 3) := by
    have h2 : 2 ^ (8 * 3) = (16777216 : Nat) := by norm_num
    have h3 : 2 ^ 25 = (33554432 : Nat) := by norm_num
    omega
  have hhsplit := encFieldBytesCorrupt_split f j
  have hhlen : (encFieldHeaderW f (fieldWords f + 2)).length = 12 :=
    encFieldHeaderW_length f _
  have hbufsplit : pre ++ (encFieldBytesCorrupt f j ++ rest) =
      pre ++ (encFieldHeaderW f (fieldWords f + 2) ++
        (bytesConcat ((f.params.take j).map encParamBytes) ++
          (footerPattern ++
            (bytesConcat ((f.params.drop j).map encParamBytes) ++ rest)))) := by
    rw [hhsplit]
    simp [List.append_assoc]
  have hq : readSlice (pre ++ (encFieldBytesCorrupt f j ++ rest))
      pre.length 12 = encFieldHeaderW f (fieldWords f + 2) := by
    rw [hbufsplit, readSlice_append_zero, readSlice_zero]
    exact take_len_left _ _ 12 hhlen
  obtain ⟨na, nb, nc, nd, hpadlit⟩ :=
    length_eq_four (pad4 (latin1Encode f.name)) (pad4_length _)
  have hhdrlit : encFieldHeaderW f (fieldWords f + 2) = [na, nb, nc, nd,
      (fieldWords f + 2) % 256, (fieldWords f + 2) / 256 % 256,
      (fieldWords f + 2) / 256 / 256 % 256, 0, f.id % 256, f.id / 256 % 256,
      f.id / 256 / 256 % 256, f.id / 256 / 256 / 256 % 256] := by
    unfold encFieldHeaderW
    rw [hpadlit, leBytes3_explicit, leBytes4_explicit]
    rfl
  have hname : readSlice (pre ++ (encFieldBytesCorrupt f j ++ rest))
      pre.length 4 = pad4 (latin1Encode f.name) := by
    rw [readSlice_take _ _ 4 12 (by omega), hq, hhdrlit, hpadlit]
    rfl
  have hsz : readSlice (pre ++ (encFieldBytesCorrupt f j ++ rest))
      (pre.length + 4) 3 = leBytes 3 (fieldWords f + 2) := by
    rw [readSlice_shift]
    rw [readSlice_take _ _ (4 + 3) 12 (by omega), hq, hhdrlit,
      leBytes3_explicit]
    rfl
  have hid : readSlice (pre ++ (encFieldBytesCorrupt f j ++ rest))
      (pre.length + 8) 4 = leBytes 4 f.id := by
    rw [readSlice_shift]
    rw [readSlice_take _ _ (8 + 4) 12 (by omega), hq, hhdrlit,
      leBytes4_explicit]
    rfl
  rw [decodeFieldsF]
  rw [if_pos (show (pre.length : Int) < flim by omega)]
  rw [if_pos (show pre.length + 12 ≤ (pre ++ (encFieldBytesCorrupt f j ++
    rest)).length by
      simp only [List.length_append]
      omega)]
  have hinner : decodeParamsF g (pre ++ (encFieldBytesCorrupt f j ++ rest))
      (pre.length + 12)
      (pre.length + readLE (readSlice (pre ++ (encFieldBytesCorrupt f j ++
        rest)) (pre.length + 4) 3) * 4) [] w =
      some (.ok (f.params, pre.length + (encFieldBytesCorrupt f j).length,
        w + 1)) := by
    rw [hsz, readLE_leBytes 3 _ hwlt]
    have hpp := congrArg List.length (bytesConcat_take_drop f.params j)
    rw [List.length_append] at hpp
    have hb2 : pre ++ (encFieldBytesCorrupt f j ++ rest) =
        (pre ++ encFieldHeaderW f (fieldWords f + 2)) ++
        (bytesConcat ((f.params.take j).map encParamBytes) ++
          (footerPattern ++
            (bytesConcat ((f.params.drop j).map encParamBytes) ++ rest))) := by
      rw [hbufsplit, List.append_assoc]
    have h12 : pre.length + 12 =
        (pre ++ encFieldHeaderW f (fieldWords f + 2)).length := by
      rw [List.length_append, hhlen]
    have hplim : pre.length + (fieldWords f + 2) * 4 =
        (pre ++ encFieldHeaderW f (fieldWords f + 2)).length +
        (bytesConcat ((f.params.take j).map encParamBytes)).length + 8 +
        (bytesConcat ((f.params.drop j).map encParamBytes)).length := by
      rw [List.length_append, hhlen]
      unfold fieldByteLen at hwords
      omega
    rw [hb2, h12, hplim]
    rw [decodeParams_corrupt f.params j g
      (pre ++ encFieldHeaderW f (fieldWords f + 2)) rest w hpleg hpnd hfuel]
    have hout : (pre ++ encFieldHeaderW f (fieldWords f + 2)).length +
        (bytesConcat ((f.params.take j).map encParamBytes)).length + 8 +
        (bytesConcat ((f.params.drop j).map encParamBytes)).length =
        pre.length + (encFieldBytesCorrupt f j).length := by
      rw [List.length_append, hhlen, hClen]
      unfold fieldByteLen
      omega
    rw [hout]
  split
  case h_1 heq =>
    rw [hinner] at heq
    cases heq
  case h_2 e heq =>
    rw [hinner] at heq
    cases heq
  case h_3 params offset1 w1 heq =>
    rw [hinner] at heq
    injection heq with heq2
    injection heq2 with heq3
    injection heq3 with hp ho
    injection ho with ho2 hw2
    subst hp
    subst ho2
    subst hw2
    rw [hname, decode_identifier_encode f.name hlegn]
    rw [hid, readLE_leBytes 4 _ (by
      have h2 : 2 ^ (8 * 4) = (4294967296 : Nat) := by norm_num
      omega)]

theorem decodeFuel_cons (f : FieldData) (l : List FieldData) :
    decodeFuel (f :: l) = 1 + max (f.params.length + 2) (decodeFuel l) := by
  unfold decodeFuel
  rw [List.foldr_cons]

theorem decodeFuel_append_left (xs ys : List FieldData) :
    decodeFuel (xs ++ ys) ≥ decodeFuel xs := by
  induction xs with
  | nil =>
    rw [List.nil_append]
    have h1 : decodeFuel ([] : List FieldData) = 1 := rfl
    rw [h1]
    have := decodeFuel_ge ys
    omega
  | cons x xs ih =>
    rw [List.cons_append, decodeFuel_cons, decodeFuel_cons]
    have := max_le_max (le_refl (x.params.length + 2)) ih
    omega

theorem decodeFuel_append_length (xs ys : List FieldData) :
    decodeFuel (xs ++ ys) ≥ xs.length + decodeFuel ys := by
  induction xs with
  | nil => simp
  | cons x xs ih =>
    rw [List.cons_append, decodeFuel_cons, List.length_cons]
    have := Nat.le_max_right (x.params.length + 2) (decodeFuel (xs ++ ys))
    omega

/-- Claim C3: the quirk handler for garbled Axis-node packets — when the
8-byte pattern `00 00 00 00 AA BB CC DD` appears where a param header is
expected inside a field (the field size covering it), the decoder emits a
`DecodeWarning`, skips exactly those 8 bytes, and continues: the whole
packet still decodes to all of its fields and params, with warning count 1. -/
theorem c3_garbled_footer_tolerated (ptype : String) (pid : Nat)
    (ts : Timestamp) (info : List Nat) (fpre : List FieldData) (f : FieldData)
    (fpost : List FieldData) (j : Nat) (fuel : Nat)
    (hleg : isLegalPacket ptype pid ts info (fpre ++ f :: fpost) = true)
    (hfuel : fuel ≥ decodeFuel (fpre ++ f :: fpost)) :
    decode_packet fuel (corruptPacketBytes ptype pid ts info fpre f fpost j) =
      some (.ok (⟨ptype, pid, ts, info, fpre ++ f :: fpost⟩, 1)) := by
  obtain ⟨hname, hpid, hsec, hnano, hinfo, hfleg, hsize⟩ :=
    isLegalPacket_parts ptype pid ts info (fpre ++ f :: fpost) hleg
  have hlegf : isLegalField f = true := hfleg f (by simp)
  obtain ⟨hlegn, hlegi, hlegp, hlegs⟩ := isLegalField_parts f hlegf
  have hfull : bytesConcat ((fpre ++ f :: fpost).map encFieldBytes) =
      bytesConcat (fpre.map encFieldBytes) ++ (encFieldBytes f ++
        bytesConcat (fpost.map encFieldBytes)) := by
    rw [List.map_append, bytesConcat_append, List.map_cons, bytesConcat_cons]
  have hfulllen := congrArg List.length hfull
  simp only [List.length_append] at hfulllen
  have hFlen : (encFieldBytes f).length = fieldByteLen f := encFieldBytes_length f
  have hClen : (encFieldBytesCorrupt f j).length = fieldByteLen f + 8 :=
    encFieldBytesCorrupt_length f j
  have hAmod := fieldsBytes_mod4 fpre
  have hBmod := fieldsBytes_mod4 fpost
  have hwords : fieldWords f * 4 = fieldByteLen f := fieldWords_mul4 f
  have h12p : fieldByteLen f ≥ 12 := by
    unfold fieldByteLen
    omega
  have hmidlen : (bytesConcat (fpre.map encFieldBytes) ++
      encFieldBytesCorrupt f j ++
      bytesConcat (fpost.map encFieldBytes)).length =
      (bytesConcat (fpre.map encFieldBytes)).length +
      (encFieldBytesCorrupt f j).length +
      (bytesConcat (fpost.map encFieldBytes)).length := by
    simp only [List.length_append]
  have hW4 : (32 + (bytesConcat (fpre.map encFieldBytes) ++
      encFieldBytesCorrupt f j ++
      bytesConcat (fpost.map encFieldBytes)).length + 8) / 4 * 4 =
      32 + (bytesConcat (fpre.map encFieldBytes) ++
      encFieldBytesCorrupt f j ++
      bytesConcat (fpost.map encFieldBytes)).length + 8 := by
    omega
  have hWlt : (32 + (bytesConcat (fpre.map encFieldBytes) ++
      encFieldBytesCorrupt f j ++
      bytesConcat (fpost.map encFieldBytes)).length + 8) / 4 < 2 ^ 32 := by
    omega
  have hassoc : corruptPacketBytes ptype pid ts info fpre f fpost j =
      packetHeaderBytes ptype
        ((32 + (bytesConcat (fpre.map encFieldBytes) ++
          encFieldBytesCorrupt f j ++
          bytesConcat (fpost.map encFieldBytes)).length + 8) / 4) pid ts info ++
        ((bytesConcat (fpre.map encFieldBytes) ++ encFieldBytesCorrupt f j ++
          bytesConcat (fpost.map encFieldBytes)) ++ footerBytes) := by
    unfold corruptPacketBytes
    rw [List.append_assoc]
  rw [hassoc]
  unfold decode_packet
  rw [show readSlice (packetHeaderBytes ptype
      ((32 + (bytesConcat (fpre.map encFieldBytes) ++
        encFieldBytesCorrupt f j ++
        bytesConcat (fpost.map encFieldBytes)).length + 8) / 4) pid ts info ++
      ((bytesConcat (fpre.map encFieldBytes) ++ encFieldBytesCorrupt f j ++
        bytesConcat (fpost.map encFieldBytes)) ++ footerBytes)) 0 32 =
      packetHeaderBytes ptype
        ((32 + (bytesConcat (fpre.map encFieldBytes) ++
          encFieldBytesCorrupt f j ++
          bytesConcat (fpost.map encFieldBytes)).length + 8) / 4) pid ts info by
    rw [readSlice_zero]
    exact take_len_left _ _ 32 (packetHeaderBytes_length _ _ _ _ _)]
  rw [decode_cps_header ptype _ pid ts info hname hWlt hpid hsec hnano hinfo]
  show decode_packet_body _ fuel _ = _
  rw [drop_len_left _ _ 32 (packetHeaderBytes_length _ _ _ _ _)]
  unfold decode_packet_body
  rw [if_neg (by
    show ¬ (((bytesConcat (fpre.map encFieldBytes) ++ encFieldBytesCorrupt f j ++
      bytesConcat (fpost.map encFieldBytes)) ++ footerBytes).length : Int) >
      (((32 + (bytesConcat (fpre.map encFieldBytes) ++
        encFieldBytesCorrupt f j ++
        bytesConcat (fpost.map encFieldBytes)).length + 8) / 4 : Nat) : Int)
        * 4 - 32
    have hfoot : footerBytes.length = 8 := rfl
    simp only [List.length_append, hfoot]
    simp only [List.length_append] at hW4
    push_cast
    omega)]
  obtain ⟨g, hgeq, hgp, hgpost⟩ : ∃ g, fuel - fpre.length = g + 1 ∧
      g ≥ f.params.length + 2 ∧ g ≥ decodeFuel fpost := by
    have hL1 := decodeFuel_append_length fpre (f :: fpost)
    have hcons := decodeFuel_cons f fpost
    have hmax1 := Nat.le_max_left (f.params.length + 2) (decodeFuel fpost)
    have hmax2 := Nat.le_max_right (f.params.length + 2) (decodeFuel fpost)
    exact ⟨fuel - fpre.length - 1, by omega, by omega, by omega⟩
  have hflds : decodeFieldsF fuel
      ((bytesConcat (fpre.map encFieldBytes) ++ encFieldBytesCorrupt f j ++
        bytesConcat (fpost.map encFieldBytes)) ++ footerBytes) 0
      ((((32 + (bytesConcat (fpre.map encFieldBytes) ++
        encFieldBytesCorrupt f j ++
        bytesConcat (fpost.map encFieldBytes)).length + 8) / 4 : Nat) : Int)
        * 4 - 32 - 8) [] 0 = some (.ok (fpre ++ f :: fpost, 1)) := by
    have hbr : (bytesConcat (fpre.map encFieldBytes) ++
        encFieldBytesCorrupt f j ++
        bytesConcat (fpost.map encFieldBytes)) ++ footerBytes =
        bytesConcat (fpre.map encFieldBytes) ++ (encFieldBytesCorrupt f j ++
          (bytesConcat (fpost.map encFieldBytes) ++ footerBytes)) := by
      simp [List.append_assoc]
    rw [hbr]
    have h1 : decodeFieldsF fuel
        (bytesConcat (fpre.map encFieldBytes) ++ (encFieldBytesCorrupt f j ++
          (bytesConcat (fpost.map encFieldBytes) ++ footerBytes))) 0
        ((((32 + (bytesConcat (fpre.map encFieldBytes) ++
          encFieldBytesCorrupt f j ++
          bytesConcat (fpost.map encFieldBytes)).length + 8) / 4 : Nat) : Int)
          * 4 - 32 - 8) [] 0 =
        decodeFieldsF (fuel - fpre.length)
        (bytesConcat (fpre.map encFieldBytes) ++ (encFieldBytesCorrupt f j ++
          (bytesConcat (fpost.map encFieldBytes) ++ footerBytes)))
        (bytesConcat (fpre.map encFieldBytes)).length
        ((((32 + (bytesConcat (fpre.map encFieldBytes) ++
          encFieldBytesCorrupt f j ++
          bytesConcat (fpost.map encFieldBytes)).length + 8) / 4 : Nat) : Int)
          * 4 - 32 - 8) fpre 0 := by
      have := decodeFields_chain fpre fuel []
        (encFieldBytesCorrupt f j ++
          (bytesConcat (fpost.map encFieldBytes) ++ footerBytes))
        ((((32 + (bytesConcat (fpre.map encFieldBytes) ++
          encFieldBytesCorrupt f j ++
          bytesConcat (fpost.map encFieldBytes)).length + 8) / 4 : Nat) : Int)
          * 4 - 32 - 8) [] 0
        (fun q hq => hfleg q (by simp [hq]))
        (by
          simp only [List.length_nil, List.length_append]
          simp only [List.length_append] at hW4
          push_cast
          omega)
        (le_trans (decodeFuel_append_left fpre (f :: fpost)) hfuel)
      simpa using this
    rw [h1, hgeq]
    have h2 := decodeFields_corrupt_step f j g
      (bytesConcat (fpre.map encFieldBytes))
      (bytesConcat (fpost.map encFieldBytes) ++ footerBytes)
      ((((32 + (bytesConcat (fpre.map encFieldBytes) ++
        encFieldBytesCorrupt f j ++
        bytesConcat (fpost.map encFieldBytes)).length + 8) / 4 : Nat) : Int)
        * 4 - 32 - 8) fpre 0 hlegf
      (by
        simp only [List.length_append] at hW4
        push_cast
        omega) hgp
    rw [h2]
    have h3 := decodeFields_complete fpost g
      (bytesConcat (fpre.map encFieldBytes) ++ encFieldBytesCorrupt f j)
      footerBytes
      ((((32 + (bytesConcat (fpre.map encFieldBytes) ++
        encFieldBytesCorrupt f j ++
        bytesConcat (fpost.map encFieldBytes)).length + 8) / 4 : Nat) : Int)
        * 4 - 32 - 8) (fpre ++ [f]) 1
      (fun q hq => hfleg q (by simp [hq]))
      (by
        simp only [List.length_append] at hW4 ⊢
        push_cast
        omega) hgpost
    rw [List.append_assoc] at h3
    rw [List.length_append] at h3
    rw [h3]
    rw [List.append_assoc, List.singleton_append]
  rw [hflds]
  show (match checkFooter ((bytesConcat (fpre.map encFieldBytes) ++
      encFieldBytesCorrupt f j ++
      bytesConcat (fpost.map encFieldBytes)) ++ footerBytes)
      ((((32 + (bytesConcat (fpre.map encFieldBytes) ++
        encFieldBytesCorrupt f j ++
        bytesConcat (fpost.map encFieldBytes)).length + 8) / 4 : Nat) : Int)
        * 4 - 32 - 8) with
    | Except.error e => some (Except.error e)
    | Except.ok _ => some (Except.ok
        ((⟨ptype, pid, ts, info, fpre ++ f :: fpost⟩ : PacketData), 1))) = _
  have hcf : checkFooter ((bytesConcat (fpre.map encFieldBytes) ++
      encFieldBytesCorrupt f j ++
      bytesConcat (fpost.map encFieldBytes)) ++ footerBytes)
      ((((32 + (bytesConcat (fpre.map encFieldBytes) ++
        encFieldBytesCorrupt f j ++
        bytesConcat (fpost.map encFieldBytes)).length + 8) / 4 : Nat) : Int)
        * 4 - 32 - 8) = .ok () := by
    have hoff : ((((32 + (bytesConcat (fpre.map encFieldBytes) ++
        encFieldBytesCorrupt f j ++
        bytesConcat (fpost.map encFieldBytes)).length + 8) / 4 : Nat) : Int)
        * 4 - 32 - 8) =
        ((bytesConcat (fpre.map encFieldBytes) ++ encFieldBytesCorrupt f j ++
          bytesConcat (fpost.map encFieldBytes)).length : Int) := by
      push_cast
      omega
    rw [hoff]
    unfold checkFooter
    have hfo : footerOffset
        (((bytesConcat (fpre.map encFieldBytes) ++ encFieldBytesCorrupt f j ++
          bytesConcat (fpost.map encFieldBytes)) ++ footerBytes)).length
        ((bytesConcat (fpre.map encFieldBytes) ++ encFieldBytesCorrupt f j ++
          bytesConcat (fpost.map encFieldBytes)).length : Int) =
        ((bytesConcat (fpre.map encFieldBytes) ++ encFieldBytesCorrupt f j ++
          bytesConcat (fpost.map encFieldBytes)).length : Int) := by
      unfold footerOffset
      rw [if_neg (by omega)]
    rw [hfo]
    rw [if_neg (by
      simp only [List.length_append]
      rw [show footerBytes.length = 8 from rfl]
      push_cast
      omega)]
    rw [if_neg (by
      rw [show ((bytesConcat (fpre.map encFieldBytes) ++
        encFieldBytesCorrupt f j ++
        bytesConcat (fpost.map encFieldBytes)).length : Int).toNat =
        (bytesConcat (fpre.map encFieldBytes) ++ encFieldBytesCorrupt f j ++
          bytesConcat (fpost.map encFieldBytes)).length by omega]
      rw [readSlice_shift]
      rw [readSlice_suffix _ footerBytes (4 + 4) rfl]
      simp [footerBytes])]
  rw [hcf]

/-- Witness for C3: a concrete corrupted packet decodes with one warning. -/
theorem c3_garbled_footer_tolerated_witness :
    isLegalPacket "TEST" 1 ⟨5, 6⟩ [48, 49, 50, 51]
      [⟨"ECHO", 7, [("VALU", .int 42)]⟩] = true ∧
    (10 : Nat) ≥ decodeFuel [⟨"ECHO", 7, [("VALU", .int 42)]⟩] ∧
    decode_packet 10 (corruptPacketBytes "TEST" 1 ⟨5, 6⟩ [48, 49, 50, 51] []
      ⟨"ECHO", 7, [("VALU", .int 42)]⟩ [] 0) =
      some (.ok (⟨"TEST", 1, ⟨5, 6⟩, [48, 49, 50, 51],
        [⟨"ECHO", 7, [("VALU", .int 42)]⟩]⟩, 1)) :=
  ⟨by decide, by decide,
    c3_garbled_footer_tolerated "TEST" 1 ⟨5, 6⟩ [48, 49, 50, 51] []
      ⟨"ECHO", 7, [("VALU", .int 42)]⟩ [] 0 10 (by decide) (by decide)⟩

/-! ## C10: checksum words and decoding -/

/-- The first decode phase reads bytes 0-15 and 20-31 of the header but
never bytes 16-19 (the header checksum word). -/
theorem decode_cps_checksum_invariant (pre c t : List Nat)
    (hpre : pre.length = 16) (hc : c.length = 4) :
    decode_packet_cps (pre ++ (c ++ t)) =
      if 16 + (4 + t.length) = 32 then
        (if readSlice pre 0 4 ≠ headerMagic then
          Except.error (.typeError "DecodeError: invalid packet header")
        else .ok ⟨decode_identifier (readSlice pre 4 4),
          readLE (readSlice pre 12 4),
          ⟨readLE (readSlice t 0 4), readLE (readSlice t 4 4)⟩,
          readSlice t 8 4, (readLE (readSlice pre 8 4) * 4 : Int) - 32⟩)
      else .error .structError := by
  unfold decode_packet_cps
  rw [show (pre ++ (c ++ t)).length = 16 + (4 + t.length) by
    simp [List.length_append, hpre, hc]]
  by_cases h32 : 16 + (4 + t.length) = 32
  · rw [if_pos h32, if_pos h32]
    rw [show pre ++ (c ++ t) = (pre ++ c) ++ t from
      (List.append_assoc pre c t).symm]
    have h20 : (pre ++ c).length = 20 := by
      rw [List.length_append, hpre, hc]
    rw [readSlice_front (pre ++ c) t 0 4 (by omega)]
    rw [readSlice_front (pre ++ c) t 4 4 (by omega)]
    rw [readSlice_front (pre ++ c) t 8 4 (by omega)]
    rw [readSlice_front (pre ++ c) t 12 4 (by omega)]
    rw [readSlice_front pre c 0 4 (by omega)]
    rw [readSlice_front pre c 4 4 (by omega)]
    rw [readSlice_front pre c 8 4 (by omega)]
    rw [readSlice_front pre c 12 4 (by omega)]
    rw [show (20 : Nat) = (pre ++ c).length + 0 by omega]
    rw [readSlice_append (pre ++ c) t 0 4]
    rw [show (24 : Nat) = (pre ++ c).length + 4 by omega]
    rw [readSlice_append (pre ++ c) t 4 4]
    rw [show (28 : Nat) = (pre ++ c).length + 8 by omega]
    rw [readSlice_append (pre ++ c) t 8 4]
  · rw [if_neg h32, if_neg h32]

/-- Claim C10 (amended): the checksum word that decoding provably never
uses is the *header* checksum (bytes 16-19, unpacked into
`header_checksum` and discarded): replacing those four bytes by any others
leaves the decode result unchanged.  (The analogous statement for the
footer checksum is false — see the counterexample.) -/
theorem c10_header_checksum_ignored (pre c1 c2 post : List Nat) (fuel : Nat)
    (hpre : pre.length = 16) (hc1 : c1.length = 4) (hc2 : c2.length = 4) :
    decode_packet fuel (pre ++ (c1 ++ post)) =
      decode_packet fuel (pre ++ (c2 ++ post)) := by
  unfold decode_packet
  have hslice : ∀ c : List Nat, c.length = 4 →
      readSlice (pre ++ (c ++ post)) 0 32 = pre ++ (c ++ post.take 12) := by
    intro c hc
    rw [readSlice_zero]
    rw [take_append_ge pre _ 32 (by omega)]
    rw [take_append_ge c post (32 - pre.length) (by omega)]
    rw [hpre, hc]
  have hdrop : ∀ c : List Nat, c.length = 4 →
      (pre ++ (c ++ post)).drop 32 = post.drop 12 := by
    intro c hc
    rw [show (32 : Nat) = pre.length + 16 by omega]
    rw [List.drop_append]
    rw [show (16 : Nat) = c.length + 12 by omega]
    rw [List.drop_append]
  rw [hslice c1 hc1, hslice c2 hc2, hdrop c1 hc1, hdrop c2 hc2]
  rw [decode_cps_checksum_invariant pre c1 (post.take 12) hpre hc1]
  rw [decode_cps_checksum_invariant pre c2 (post.take 12) hpre hc2]

/-- Claim C10 counterexample: two 64-byte packets identical except for the
*footer* checksum word (bytes 56-59).  The field size spans 24 bytes but
its params end after 20, so the quirk scan at the last 4 field bytes reads
8 bytes straddling into the footer checksum.  With checksum
`AA BB CC DD` the window matches the garbled-footer pattern: 8 bytes are
skipped, the offset overshoots the field limit and decoding raises; with
checksum `01 00 00 00` the window parses as one more (empty) param and the
packet decodes fine.  The footer checksum is read and does affect the
decode result. -/
theorem c10_counterexample :
    decode_packet 10
      (([0xdd, 0xcc, 0xbb, 0xaa] ++ [84, 69, 83, 84] ++ [16, 0, 0, 0] ++
        [0, 0, 0, 0] ++ [0, 0, 0, 0] ++ [0, 0, 0, 0] ++ [0, 0, 0, 0] ++
        [0, 0, 0, 0] ++ [70, 0, 0, 0] ++ [6, 0, 0] ++ [0] ++ [0, 0, 0, 0] ++
        [65, 0, 0, 0] ++ [2, 0, 0] ++ [3] ++ [0, 0, 0, 0]) ++
        ([0xaa, 0xbb, 0xcc, 0xdd] ++ [0xaa, 0xbb, 0xcc, 0xdd])) =
      some (.error (.typeError "DecodeError: field overflow")) ∧
    decode_packet 10
      (([0xdd, 0xcc, 0xbb, 0xaa] ++ [84, 69, 83, 84] ++ [16, 0, 0, 0] ++
        [0, 0, 0, 0] ++ [0, 0, 0, 0] ++ [0, 0, 0, 0] ++ [0, 0, 0, 0] ++
        [0, 0, 0, 0] ++ [70, 0, 0, 0] ++ [6, 0, 0] ++ [0] ++ [0, 0, 0, 0] ++
        [65, 0, 0, 0] ++ [2, 0, 0] ++ [3] ++ [0, 0, 0, 0]) ++
        ([1, 0, 0, 0] ++ [0xaa, 0xbb, 0xcc, 0xdd])) =
      some (.ok (⟨"TEST", 0, ⟨0, 0⟩, [0, 0, 0, 0],
        [⟨"F", 0, [("A", .raw []), ("", .int 0)]⟩]⟩, 0)) := by
  exact ⟨by decide, by decide⟩

/-- Witness for the amended C10 at concrete inputs. -/
theorem c10_header_checksum_ignored_witness :
    decode_packet 5 (List.replicate 16 0 ++ ([1, 2, 3, 4] ++
      List.replicate 12 0)) =
      decode_packet 5 (List.replicate 16 0 ++ ([5, 6, 7, 8] ++
        List.replicate 12 0)) :=
  c10_header_checksum_ignored (List.replicate 16 0) [1, 2, 3, 4] [5, 6, 7, 8]
    (List.replicate 12 0) 5 (by decide) (by decide) (by decide)
end NCPLib
